import Mathlib

/-
  Verification of the pathfinding-sandbox engine.

  Shallow embedding of src/queue.py and src/pathfinding.py.
  Positions are modelled as pairs of integers (Python int tuples).
  Python dicts keyed by positions are modelled as association lists with
  unique keys; the underlying heapq list of Queue.PriorityQueue is modelled
  as a list of (priority, item) entries whose get operation removes the
  lexicographically smallest entry (Python compares the (priority, item)
  tuples lexicographically), which is the behaviour of a valid binary heap.
  Floating point distances produced by math.sqrt are modelled by squared
  integer distances: the real square root is strictly monotone, so every
  comparison made by the source on these small values is preserved.
  Randomness (module random) is injected as explicit argument streams, as
  the RNG draws of the source.
-/

abbrev Pos := Int × Int

/-- Association list model of a Python dict keyed by positions. -/
def dlookup {β : Type} : List (Pos × β) → Pos → Option β
  | [], _ => none
  | (k, v) :: rest, x => if k = x then some v else dlookup rest x

/-- Removal of a key from a dict (del d[k] when present, identity otherwise). -/
def derase {β : Type} : List (Pos × β) → Pos → List (Pos × β)
  | [], _ => []
  | (k, v) :: rest, x => if k = x then derase rest x else (k, v) :: derase rest x

/-- Assignment d[k] = v of a Python dict, keeping keys unique. -/
def dinsert {β : Type} (l : List (Pos × β)) (x : Pos) (v : β) : List (Pos × β) :=
  (x, v) :: derase l x

/-- PriorityQueueSet of src/queue.py: a Queue.PriorityQueue plus an items dict. -/
structure PriorityQueueSet where
  queue : List (Nat × Pos)
  items : List (Pos × Nat)
deriving DecidableEq, Repr

/-- Lexicographic order on (priority, item) entries, as Python tuple comparison. -/
def entryLE (a b : Nat × Pos) : Bool :=
  decide (a.1 < b.1 ∨ (a.1 = b.1 ∧
    (a.2.1 < b.2.1 ∨ (a.2.1 = b.2.1 ∧ a.2.2 ≤ b.2.2))))

/-- Smallest entry of the heap list (what heapq pop returns on a valid heap). -/
def minEntry : List (Nat × Pos) → Option (Nat × Pos)
  | [] => none
  | e :: rest =>
    match minEntry rest with
    | none => some e
    | some m => if entryLE e m then some e else some m

/-- Result of PriorityQueueSet.get. Queue.PriorityQueue.get blocks forever on an
    empty queue in this single threaded program, modelled by the empty case; the
    keyErr case models the KeyError raised by del items when the popped item is
    not in the dict (the entry has already been removed from the heap then). -/
inductive GetRes where
  | empty : GetRes
  | keyErr : List (Nat × Pos) → GetRes
  | ok : Nat × Pos → PriorityQueueSet → GetRes
deriving DecidableEq, Repr

namespace PriorityQueueSet

/-- put of src/queue.py lines 9-11. -/
def put (p : Nat) (x : Pos) (s : PriorityQueueSet) : PriorityQueueSet :=
  { queue := s.queue ++ [(p, x)], items := dinsert s.items x p }

/-- get of src/queue.py lines 13-16. -/
def get (s : PriorityQueueSet) : GetRes :=
  match minEntry s.queue with
  | none => .empty
  | some e =>
    match dlookup s.items e.2 with
    | none => .keyErr (s.queue.erase e)
    | some _ => .ok e ⟨s.queue.erase e, derase s.items e.2⟩

/-- replace of src/queue.py lines 18-21. The source removes the stale
    (items[item], item) tuple from the raw heap list; list remove deletes the
    first occurrence (and raises ValueError when absent, which never happens in
    the states replace is invoked on here, since items agrees with the heap). -/
def replace (p : Nat) (x : Pos) (s : PriorityQueueSet) : PriorityQueueSet :=
  match dlookup s.items x with
  | some old => put p x ⟨s.queue.erase (old, x), s.items⟩
  | none => put p x s

/-- priority of src/queue.py lines 23-24 (dict get: None when absent). -/
def priority (x : Pos) (s : PriorityQueueSet) : Option Nat :=
  dlookup s.items x

/-- Membership, src/queue.py lines 26-27. -/
def contains (x : Pos) (s : PriorityQueueSet) : Bool :=
  (dlookup s.items x).isSome

end PriorityQueueSet

/-- Board of src/pathfinding.py. The drawing configuration is omitted; the
    start and end points are required here because every Pathfinder constructor
    raises ValueError when either is missing. -/
structure Board where
  width : Nat
  height : Nat
  walls : List Pos
  start_point : Pos
  end_point : Pos
deriving DecidableEq, Repr

namespace Board

/-- is_in_board, src/pathfinding.py lines 46-47 (inclusive on both ends). -/
def is_in_board (b : Board) (p : Pos) : Bool :=
  decide (0 ≤ p.1 ∧ p.1 ≤ (b.width : Int) ∧ 0 ≤ p.2 ∧ p.2 ≤ (b.height : Int))

/-- is_wall, src/pathfinding.py lines 52-53. -/
def is_wall (b : Board) (p : Pos) : Bool :=
  decide (p ∈ b.walls)

/-- is_valid_path_point, src/pathfinding.py lines 49-50. -/
def is_valid_path_point (b : Board) (p : Pos) : Bool :=
  b.is_in_board p && !(b.is_wall p)

/-- get_open_points, src/pathfinding.py lines 55-59: x ranges over
    xrange(width) and y over xrange(height), x in the outer loop. -/
def get_open_points (b : Board) : List Pos :=
  ((List.range b.width).flatMap fun x =>
    (List.range b.height).map fun y => ((x : Int), (y : Int))).filter
      (fun p => !(b.is_wall p))

/-- Squared distance to the end point. The source (dist_to_end, lines 61-63)
    takes math.sqrt of this value; the square root is strictly monotone, so all
    comparisons the source performs are preserved by the squared value. -/
def sq_dist_to_end (b : Board) (p : Pos) : Int :=
  (b.end_point.1 - p.1) ^ 2 + (b.end_point.2 - p.2) ^ 2

end Board

/-- get_valid_moves, src/pathfinding.py lines 145-155, in source order. -/
def get_valid_moves (b : Board) (p : Pos) : List Pos :=
  (if 0 < p.1 then [(p.1 - 1, p.2)] else []) ++
  (if p.1 < (b.width : Int) then [(p.1 + 1, p.2)] else []) ++
  (if 0 < p.2 then [(p.1, p.2 - 1)] else []) ++
  (if p.2 < (b.height : Int) then [(p.1, p.2 + 1)] else [])

/-- get_available_moves, src/pathfinding.py lines 157-159. -/
def get_available_moves (b : Board) (p : Pos) : List Pos :=
  (get_valid_moves b p).filter (b.is_valid_path_point)

/-- State of SimplePathfinder (src/pathfinding.py lines 168-173): the current
    coordinates and the already_taken list. The list holds Option Pos because
    the source appends least_point even when it is None (line 191). -/
structure SimplePathfinder where
  cur : Pos
  already_taken : List (Option Pos)
deriving DecidableEq, Repr

/-- Initial greedy state, src/pathfinding.py lines 172-173. -/
def SimplePathfinder.init (b : Board) : SimplePathfinder :=
  { cur := b.start_point, already_taken := [some b.start_point] }

/-- Selection loop of src/pathfinding.py lines 183-189: least_dist starts at
    float Inf (modelled by the none accumulator, since every squared distance
    is finite) and is lowered only on a strict improvement. -/
def least_dist_point (b : Board) : List Pos → Option (Int × Pos) → Option (Int × Pos)
  | [], acc => acc
  | q :: rest, acc =>
    let d := b.sq_dist_to_end q
    match acc with
    | none => least_dist_point b rest (some (d, q))
    | some (bd, bp) =>
      if d < bd then least_dist_point b rest (some (d, q))
      else least_dist_point b rest (some (bd, bp))

/-- Outcome of one SimplePathfinder.next call. stopIteration models the raise
    at line 177; typeErr models the TypeError raised at line 192 when the
    source unpacks least_point = None, after already_taken has been mutated. -/
inductive SPStep where
  | stopIteration : SPStep
  | typeErr : SimplePathfinder → SPStep
  | ok : Pos → SimplePathfinder → SPStep
deriving DecidableEq, Repr

/-- Moves considered by the greedy walker, src/pathfinding.py lines 179-181:
    the valid moves of the current position, minus the already taken ones,
    restricted to valid path points. -/
def greedy_available_moves (b : Board) (st : SimplePathfinder) : List Pos :=
  ((get_valid_moves b st.cur).filter
    (fun p => !(st.already_taken.contains (some p)))).filter (b.is_valid_path_point)

/-- next of SimplePathfinder, src/pathfinding.py lines 175-193. -/
def SimplePathfinder.next (b : Board) (st : SimplePathfinder) : SPStep :=
  if st.cur = b.end_point then .stopIteration
  else
    match least_dist_point b (greedy_available_moves b st) none with
    | none => .typeErr { st with already_taken := st.already_taken ++ [none] }
    | some (_, lp) => .ok lp { cur := lp, already_taken := st.already_taken ++ [some lp] }

/-- Wall generator state: the board wall list it mutates and its open_points
    list (src/pathfinding.py lines 243-246). -/
structure WallGen where
  walls : List Pos
  openPts : List Pos
deriving DecidableEq, Repr

/-- get_positions_ahead, src/pathfinding.py lines 257-284. -/
def get_positions_ahead (b : Board) (p : Pos) (dir : Int × Int) : List Pos :=
  let a_d_x := if dir.1 ≠ 0 then [dir.1, dir.1, dir.1] else [-1, 0, 1]
  let a_d_y := if dir.2 ≠ 0 then [dir.2, dir.2, dir.2] else [-1, 0, 1]
  (((a_d_x).zip a_d_y).map (fun d => (p.1 + d.1, p.2 + d.2))).filter (b.is_in_board)

/-- get_turn_vectors, src/pathfinding.py lines 286-293 (the arguments used are
    always one of the four unit directions, so the final case never applies). -/
def get_turn_vectors (dir : Int × Int) : List (Int × Int) :=
  if dir.1 ≠ 0 then [(0, 1), (0, -1)]
  else if dir.2 ≠ 0 then [(1, 0), (-1, 0)]
  else []

/-- generate_wall, src/pathfinding.py lines 295-317. The random.random turn
    draws and the random.choice turn selections are injected as the two Bool
    streams (true in the first stream means random.random was below 0.3, true
    in the second selects the first of the two turn vectors). -/
def generate_wall (b : Board) :
    WallGen → Pos → (Int × Int) → Nat → List Bool → List Bool → WallGen
  | wg, _, _, 0, _, _ => wg
  | wg, point, dir, len + 1, turnRs, turnCs =>
    if ¬ point ∈ wg.openPts then wg
    else if (get_positions_ahead b point dir).any (fun q => !(wg.openPts.contains q)) then wg
    else
      let wg2 : WallGen := ⟨wg.walls ++ [point], wg.openPts.erase point⟩
      let doTurn := turnRs.headD false
      let dir2 :=
        if doTurn then
          (if turnCs.headD true then (get_turn_vectors dir).headD dir
           else ((get_turn_vectors dir).drop 1).headD dir)
        else dir
      generate_wall b wg2 (point.1 + dir2.1, point.2 + dir2.2) dir2 len
        turnRs.tail (if doTurn then turnCs.tail else turnCs)

/-- RNG draws consumed by one segment of build_walls: the index random.choice
    picks from open_points, the length from randint, the initial direction from
    get_random_direction_vector, and the two turn streams of the segment. -/
structure WallSeg where
  seedIdx : Nat
  len : Nat
  dir : Int × Int
  turnRs : List Bool
  turnCs : List Bool

/-- build_walls, src/pathfinding.py lines 319-329. The number of segments and
    each segment draw come from the RNG (the bounds involve ceil(log(w * h)),
    which only constrains the ranges of the draws, not their use), so they are
    injected: the list length is the randint(board_alpha, board_alpha * 2)
    draw. random.choice on an empty open_points list would raise IndexError;
    that case is modelled by stopping. -/
def build_walls (b : Board) : WallGen → List WallSeg → WallGen
  | wg, [] => wg
  | wg, seg :: rest =>
    match wg.openPts with
    | [] => wg
    | _ =>
      let seed := wg.openPts.getD (seg.seedIdx % wg.openPts.length) (0, 0)
      build_walls b (generate_wall b wg seed seg.dir seg.len seg.turnRs seg.turnCs) rest

/-- is_ccw of src/pathfinding.py lines 351-354 (non strict: straight lines and
    left turns both count). -/
def is_ccw (p1 p2 p3 : Pos) : Bool :=
  decide (0 ≤ (p2.1 - p1.1) * (p3.2 - p1.2) - (p2.2 - p1.2) * (p3.1 - p1.1))

/-- Squared distance between two points; dist at src/pathfinding.py lines
    361-362 is the square root of this, and the square root is strictly
    monotone, so the maximisation below is unchanged. -/
def sq_dist (a q : Pos) : Int :=
  (q.1 - a.1) ^ 2 + (q.2 - a.2) ^ 2

/-- Stable insertion into a sorted list: the new element goes after every
    element currently ordered at or below it. Folding it over the input models
    the stable Python list sort. -/
def stable_insert {α : Type} (le : α → α → Bool) (x : α) : List α → List α
  | [] => [x]
  | y :: ys => if le y x then y :: stable_insert le x ys else x :: y :: ys

/-- Stable sort by the boolean comparison le (models list.sort / sorted). -/
def stable_sort {α : Type} (le : α → α → Bool) (l : List α) : List α :=
  l.foldl (fun acc x => stable_insert le x acc) []

/-- Key order of the first sort of set_start_end_points (line 369): by (y, x). -/
def yx_le (a q : Pos) : Bool :=
  decide (a.2 < q.2 ∨ (a.2 = q.2 ∧ a.1 ≤ q.1))

/-- Quadrant class of atan2(v2, v1) along the circle from minus pi to pi:
    negative y first, then the zero angle (y = 0 with x nonnegative, including
    the zero vector since atan2(0, 0) = 0), then positive y, then angle pi. -/
def atan2_class (v : Int × Int) : Nat :=
  if v.2 < 0 then 0
  else if v.2 = 0 ∧ 0 ≤ v.1 then 1
  else if 0 < v.2 then 2
  else 3

/-- Cross product of two integer vectors. -/
def cross (v w : Int × Int) : Int := v.1 * w.2 - v.2 * w.1

/-- Exact comparison of the sort keys angle(p, first_point) (lines 356-359 and
    372): the key of p is atan2(first.2 - p.2, first.1 - p.1) - note the source
    measures the angle from p towards the pivot. Two angles in the same open
    half plane (equal class) compare by the sign of the cross product. This is
    the exact real ordering, which the float atan2 of the source realises on
    the small integer inputs of the concrete claims. -/
def angle_le (first p q : Pos) : Bool :=
  let v := (first.1 - p.1, first.2 - p.2)
  let w := (first.1 - q.1, first.2 - q.2)
  decide (atan2_class v < atan2_class w ∨
    (atan2_class v = atan2_class w ∧ 0 ≤ cross v w))

/-- Hull sweep of src/pathfinding.py lines 375-379, with the hull stack kept
    reversed (head = top of stack). On a left or straight turn the point is
    pushed; otherwise only the top is popped and the point is dropped. The
    final case models the TypeError the source would raise once the stack
    holds fewer than two points (is_ccw called with too few arguments). -/
def hull_sweep : List Pos → List Pos → List Pos
  | rev, [] => rev.reverse
  | top :: second :: rest, point :: more =>
    if is_ccw second top point then hull_sweep (point :: top :: second :: rest) more
    else hull_sweep (second :: rest) more
  | rev, _ :: _ => rev.reverse

/-- Convex hull construction of set_start_end_points, src/pathfinding.py lines
    369-379: sort by (y, x), pivot at the first point, sort the rest by the
    angle key, seed the stack with the pivot and the first sorted point, then
    sweep over the whole sorted list (the first sorted point is revisited).
    The empty cases model the IndexError the source raises on too few points. -/
def convex_hull (pts : List Pos) : List Pos :=
  match stable_sort yx_le pts with
  | [] => []
  | first_point :: rest =>
    match stable_sort (angle_le first_point) rest with
    | [] => [first_point]
    | s0 :: more => hull_sweep [s0, first_point] (s0 :: more)

/-- Inner scan of the farthest pair search, src/pathfinding.py lines 386-390,
    with squared distances (the initial -1 of line 382 keeps the first
    comparison true, as in the source). -/
def farthest_scan (fixed : Pos) :
    List Pos → Option (Pos × Pos) → Int → Option (Pos × Pos) × Int
  | [], best, bd => (best, bd)
  | q :: rest, best, bd =>
    let dd := sq_dist fixed q
    if bd < dd then farthest_scan fixed rest (some (fixed, q)) dd
    else farthest_scan fixed rest best bd

/-- Outer loop of the farthest pair search, src/pathfinding.py lines 381-390:
    not_measured starts as a copy of the hull and loses each fixed point (first
    occurrence) before the inner scan. -/
def farthest_loop : List Pos → List Pos → Option (Pos × Pos) → Int → Option (Pos × Pos) × Int
  | [], _, best, bd => (best, bd)
  | fixed :: hrest, notMeasured, best, bd =>
    let nm := notMeasured.erase fixed
    let r := farthest_scan fixed nm best bd
    farthest_loop hrest nm r.1 r.2

/-- Farthest pair step of set_start_end_points over the hull vertices. -/
def farthest_points (hull : List Pos) : Option (Pos × Pos) × Int :=
  farthest_loop hull hull none (-1)

/-- Border filter of set_start_end_points, src/pathfinding.py lines 364-368. -/
def non_border_open_points (b : Board) : List Pos :=
  b.get_open_points.filter (fun p =>
    decide (¬(p.1 = (b.width : Int) ∨ p.1 = 0) ∧ ¬(p.2 = (b.height : Int) ∨ p.2 = 0)))

/-- set_start_end_points, src/pathfinding.py lines 350-392: the resulting
    (start, end) assignment, none when farthest_points found no pair. -/
def set_start_end_points (b : Board) : Option (Pos × Pos) :=
  (farthest_points (convex_hull (non_border_open_points b))).1

/-- Search state of BestFirstSearchPathfinder (src/pathfinding.py lines
    196-205) together with instrumentation that records the externally
    observable events of a run: puts lists the argument of every open.put call,
    pops every node returned by open.get, reps counts executions of the
    open.replace call of line 234, and keyErrs counts the KeyError sites
    reached (the parents lookup of line 233 on a missing key). The closed set
    is modelled as a list in insertion order. -/
structure BFSState where
  openQ : PriorityQueueSet
  closed : List Pos
  parents : List (Pos × Pos)
  puts : List Pos
  pops : List Pos
  reps : Nat
  keyErrs : Nat
deriving DecidableEq, Repr

/-- Constructor state of BestFirstSearchPathfinder, lines 197-205. -/
def BFSState.init (b : Board) : BFSState :=
  { openQ := PriorityQueueSet.put 0 b.start_point ⟨[], []⟩
    closed := []
    parents := []
    puts := [b.start_point]
    pops := []
    reps := 0
    keyErrs := 0 }

/-- Body of the successor loop of find_path, src/pathfinding.py lines 226-234,
    for one successor, with d = dist_traveled and n the popped node. In the
    else branch the source compares dist_traveled + 1 with the dict get result;
    when that is None the Python 2 comparison int < None is False, so nothing
    happens. When the comparison succeeds the source replaces the priority of
    parent = parents[successor] - not of successor - and leaves parents
    untouched. -/
def relax_successor (d : Nat) (n : Pos) (st : BFSState) (succ : Pos) : BFSState :=
  if ¬ succ ∈ st.closed ∧ ¬ st.openQ.contains succ then
    { st with openQ := st.openQ.put (d + 1) succ
              parents := dinsert st.parents succ n
              puts := st.puts ++ [succ] }
  else
    match st.openQ.priority succ with
    | none => st
    | some prev =>
      if d + 1 < prev then
        match dlookup st.parents succ with
        | some par => { st with openQ := st.openQ.replace (d + 1) par, reps := st.reps + 1 }
        | none => { st with keyErrs := st.keyErrs + 1 }
      else st

/-- Accumulating loop of trace_parents, src/pathfinding.py lines 207-216,
    bounded by fuel (the source loops until a KeyError ends the walk). -/
def trace_aux (parents : List (Pos × Pos)) : Nat → Pos → List Pos → Option (List Pos)
  | 0, _, _ => none
  | fuel + 1, point, path =>
    match dlookup parents point with
    | none => some path.reverse
    | some nxt => trace_aux parents fuel nxt (path ++ [nxt])

/-- trace_parents, src/pathfinding.py lines 207-216: walk the parents dict from
    point until a missing key, then reverse the collected path. -/
def trace_parents (parents : List (Pos × Pos)) (fuel : Nat) (point : Pos) : Option (List Pos) :=
  trace_aux parents fuel point [point]

/-- Outcome of one find_path run. blocked models the deadlock of
    Queue.PriorityQueue.get on an empty queue (NoPathFound is raised nowhere,
    and no such name exists in the source); popKeyError the KeyError that del
    items would raise in open.get; the fuelOut cases only bound the model. -/
inductive BFSOutcome where
  | path : List Pos → BFSOutcome
  | blocked : BFSOutcome
  | popKeyError : BFSOutcome
  | traceFuelOut : BFSOutcome
  | fuelOut : BFSOutcome
deriving DecidableEq, Repr

/-- Main loop of find_path, src/pathfinding.py lines 218-234, bounded by fuel;
    the final state is returned with the outcome so that the recorded events
    of the run stay observable. -/
def find_path_loop (b : Board) : Nat → BFSState → BFSState × BFSOutcome
  | 0, st => (st, .fuelOut)
  | fuel + 1, st =>
    match st.openQ.get with
    | .empty => (st, .blocked)
    | .keyErr _ => (st, .popKeyError)
    | .ok (d, n) q2 =>
      let st1 : BFSState :=
        { st with openQ := q2
                  closed := if n ∈ st.closed then st.closed else st.closed ++ [n]
                  pops := st.pops ++ [n] }
      if n = b.end_point then
        match trace_parents st1.parents (st1.parents.length + 1) n with
        | some l => (st1, .path l)
        | none => (st1, .traceFuelOut)
      else
        find_path_loop b fuel ((get_available_moves b n).foldl (relax_successor d n) st1)

/-- find_path of BestFirstSearchPathfinder on a fresh pathfinder. -/
def find_path (b : Board) (fuel : Nat) : BFSState × BFSOutcome :=
  find_path_loop b fuel (BFSState.init b)

/-- Index of the first occurrence of a position in a list (length if absent). -/
def posIdx : List Pos → Pos → Nat
  | [], _ => 0
  | a :: l, x => if a = x then 0 else posIdx l x + 1

/-- Sequence of entries delivered by repeated get calls, stopping when the
    queue is empty (the caller would block) or a KeyError is raised. -/
def popSeq : Nat → PriorityQueueSet → List (Nat × Pos)
  | 0, _ => []
  | fuel + 1, s =>
    match s.get with
    | .ok e s2 => e :: popSeq fuel s2
    | _ => []

/-- Number of heap entries carrying a given item. -/
def itemCount (x : Pos) (l : List (Nat × Pos)) : Nat :=
  l.countP (fun e => decide (e.2 = x))

/-- Agreement between the heap list and the items dict of a PriorityQueueSet:
    every heap entry is recorded in the dict, every dict binding has its entry
    on the heap, and no item occurs twice on the heap. -/
structure PQInv (s : PriorityQueueSet) : Prop where
  nodupKeys : (s.queue.map Prod.snd).Nodup
  q2i : ∀ e ∈ s.queue, dlookup s.items e.2 = some e.1
  i2q : ∀ x p, dlookup s.items x = some p → (p, x) ∈ s.queue

/-- Loop invariant of find_path at the top of each iteration. -/
structure SInv (st : BFSState) : Prop where
  pq : PQInv st.openQ
  closedNodup : st.closed.Nodup
  closedItems : ∀ x ∈ st.closed, dlookup st.openQ.items x = none
  pairBound : ∀ e1 ∈ st.openQ.queue, ∀ e2 ∈ st.openQ.queue, e1.1 ≤ e2.1 + 1
  popsEq : st.pops = st.closed
  putsNodup : st.puts.Nodup
  putsCover : ∀ x, x ∈ st.puts ↔ (dlookup st.openQ.items x).isSome = true ∨ x ∈ st.closed
  parClosed : ∀ pr ∈ st.parents, pr.2 ∈ st.closed
  parIdx : ∀ pr ∈ st.parents, pr.1 ∈ st.closed →
    posIdx st.closed pr.2 < posIdx st.closed pr.1
  parKeysPuts : ∀ pr ∈ st.parents, pr.1 ∈ st.puts
  reps0 : st.reps = 0
  keyErrs0 : st.keyErrs = 0

/-- Invariant holding while the successor loop of one iteration runs, after
    the node n was popped with priority d: every heap priority lies between d
    and d + 1. -/
structure MidInv (d : Nat) (st : BFSState) : Prop where
  pq : PQInv st.openQ
  closedNodup : st.closed.Nodup
  closedItems : ∀ x ∈ st.closed, dlookup st.openQ.items x = none
  rangeBound : ∀ e ∈ st.openQ.queue, d ≤ e.1 ∧ e.1 ≤ d + 1
  popsEq : st.pops = st.closed
  putsNodup : st.puts.Nodup
  putsCover : ∀ x, x ∈ st.puts ↔ (dlookup st.openQ.items x).isSome = true ∨ x ∈ st.closed
  parClosed : ∀ pr ∈ st.parents, pr.2 ∈ st.closed
  parIdx : ∀ pr ∈ st.parents, pr.1 ∈ st.closed →
    posIdx st.closed pr.2 < posIdx st.closed pr.1
  parKeysPuts : ∀ pr ∈ st.parents, pr.1 ∈ st.puts
  reps0 : st.reps = 0
  keyErrs0 : st.keyErrs = 0

/-- Manhattan distance between two positions. On a board without walls this is
    the grid distance, the length in edges of a shortest 4-adjacent path. -/
def manhattan (a q : Pos) : Nat :=
  (q.1 - a.1).natAbs + (q.2 - a.2).natAbs

/-- All in-board points of a board (the bounds of is_in_board are inclusive,
    giving (width + 1) * (height + 1) cells). -/
def allCells (b : Board) : List Pos :=
  (List.range (b.width + 1)).flatMap fun x =>
    (List.range (b.height + 1)).map fun y => (Int.ofNat x, Int.ofNat y)

/-- Facts carried through a no-walls uniform cost run on top of the structural
    invariant: queue priorities equal the Manhattan distance from start, closed
    positions are in board, the start has been queued and has no parent entry,
    every parent edge descends the distance by one, and every queued position
    other than start has a parent entry. -/
structure BfsAux (b : Board) (st : BFSState) : Prop where
  qdist : ∀ e ∈ st.openQ.queue,
    e.1 = manhattan b.start_point e.2 ∧ b.is_in_board e.2 = true
  closedInb : ∀ x ∈ st.closed, b.is_in_board x = true
  startMem : b.start_point ∈ st.puts
  startNoPar : dlookup st.parents b.start_point = none
  parDist : ∀ pr ∈ st.parents,
    manhattan b.start_point pr.1 = manhattan b.start_point pr.2 + 1
  parCover : ∀ x ∈ st.puts, x ≠ b.start_point →
    (dlookup st.parents x).isSome = true

/-- Board of the no-walls concrete scenario: width 5, height 5, start (0, 0),
    end (4, 4). -/
def board5 : Board := ⟨5, 5, [], (0, 0), (4, 4)⟩

/-- Path returned by find_path on board5. -/
def path5 : List Pos :=
  [(0, 0), (0, 1), (0, 2), (0, 3), (0, 4), (1, 4), (2, 4), (3, 4), (4, 4)]

/-- Board of the sealed-off concrete scenario: a solid wall row at y = 2
    spanning x = 0..5, start (0, 0), end (0, 4). -/
def boardWall : Board :=
  ⟨5, 5, [(0, 2), (1, 2), (2, 2), (3, 2), (4, 2), (5, 2)], (0, 0), (0, 4)⟩

/-- Two by two board with no walls. -/
def board2 : Board := ⟨2, 2, [], (0, 0), (1, 1)⟩

/-- Board on which the greedy walker is stuck immediately: both neighbors of
    the start corner are walls. -/
def boardStuck : Board := ⟨5, 5, [(1, 0), (0, 1)], (0, 0), (4, 4)⟩

/-- Point set of the convex hull concrete scenario: the four corners of a
    square of side 5 plus the interior point (2, 2). -/
def c6pts : List Pos := [(0, 0), (0, 5), (5, 0), (5, 5), (2, 2)]

/-- Fresh wall generator state over board2 (the constructor of
    SimpleWallGenerator copies get_open_points). -/
def wg2 : WallGen := ⟨[], board2.get_open_points⟩

/-- One wall segment seeding at open point index 0 going right, length 4,
    never turning (a run the RNG can produce on board2). -/
def wallSegs : List WallSeg := [⟨0, 4, (1, 0), [false, false, false, false], []⟩]

/-- Queue state after put(0, x) then replace(1, x) on a queue that already
    held an entry (0, x) for the same item x = (0, 0). -/
def c4state : PriorityQueueSet :=
  PriorityQueueSet.replace 1 (0, 0)
    (PriorityQueueSet.put 0 (0, 0) ⟨[(0, (0, 0))], [((0, 0), 0)]⟩)

/-- Search state exhibiting the relax step: the successor (2, 2) sits on the
    open queue with priority 5 and recorded parent (1, 2). -/
def stC1 : BFSState :=
  { openQ := ⟨[(5, (2, 2))], [((2, 2), 5)]⟩
    closed := [(2, 1)]
    parents := [((2, 2), (1, 2))]
    puts := []
    pops := []
    reps := 0
    keyErrs := 0 }

example : get_valid_moves ⟨2, 2, [], (0, 0), (1, 1)⟩ (0, 0) = [(1, 0), (0, 1)] := by decide

example :
    PriorityQueueSet.get (PriorityQueueSet.put 3 (1, 1)
      (PriorityQueueSet.put 2 (0, 1) ⟨[], []⟩)) =
    .ok (2, (0, 1)) ⟨[(3, (1, 1))], [((1, 1), 3)]⟩ := by decide

/-- C1: on a state where cost_so_far + 1 = 2 improves the queued priority 5 of
    the walkable successor (2, 2) of the popped node (2, 1), the relax step of
    find_path leaves the priority and the parent of the successor unchanged
    and instead gives the priority entry of the recorded parent (1, 2) the new
    priority 2 - the opposite of what the specification requires (the spec
    itself flags this line as a defect). -/
theorem c1_relax_updates_parent_not_successor :
    ((2, 2) : Pos) ∈ get_available_moves board5 (2, 1) ∧
    (relax_successor 1 (2, 1) stC1 (2, 2)).openQ.priority (2, 2) = some 5 ∧
    (relax_successor 1 (2, 1) stC1 (2, 2)).parents = [((2, 2), (1, 2))] ∧
    (relax_successor 1 (2, 1) stC1 (2, 2)).openQ.priority (1, 2) = some 2 ∧
    (relax_successor 1 (2, 1) stC1 (2, 2)).reps = 1 := by decide

/-- C2: on the sealed-off grid the uniform cost search exhausts its open queue
    and then calls Queue.PriorityQueue.get on the empty queue, which blocks
    forever in this single threaded program; no NoPathFound error is raised
    (no such name exists in the source). -/
theorem c2_sealed_grid_blocks :
    (find_path boardWall 40).2 = .blocked ∧
    (find_path boardWall 40).1.pops.length = 12 := by decide

/-- C3 counterexample: on the 5 by 5 no-walls grid with start (0, 0) and end
    (4, 4) the returned path contains the start position and has length 9, not
    8, so the path neither excludes start nor has length equal to the
    Manhattan distance. -/
theorem c3_counterexample :
    (find_path board5 40).2 = .path path5 ∧
    board5.start_point ∈ path5 ∧ path5.length = 9 := by decide

/-- C6 counterexample: the hull computed from the square corners plus the
    interior point (2, 2) contains (2, 2), so the hull vertices are not
    exactly the four corners. -/
theorem c6_counterexample : ((2, 2) : Pos) ∈ convex_hull c6pts := by decide

/-- C6 amended: on the square-corner point set the sweep returns the stack
    pivot, the interior point (2, 2) twice, and the corners (5, 5), (0, 5),
    (5, 0) - the four corners plus the interior point - while the farthest
    pair step still selects the opposite corners (0, 0) and (5, 5) at squared
    distance 50, that is distance 5 times the square root of 2. -/
theorem c6_amended_hull_and_diameter :
    convex_hull c6pts = [(0, 0), (2, 2), (2, 2), (5, 5), (0, 5), (5, 0)] ∧
    farthest_points (convex_hull c6pts) = (some ((0, 0), (5, 5)), 50) := by decide

/-- C7: when the greedy walker has no walkable unvisited neighbor, next
    appends None to already_taken (mutating the visited list) and then raises
    TypeError while unpacking least_point = None; it does not signal a clean
    NoMoveAvailable condition with the state unchanged. -/
theorem c7_dead_end_mutates_and_raises :
    SimplePathfinder.next boardStuck (SimplePathfinder.init boardStuck) =
      .typeErr { cur := (0, 0), already_taken := [some (0, 0), none] } ∧
    (SimplePathfinder.init boardStuck).already_taken = [some (0, 0)] := by decide

/-- C10 counterexample: on the 2 by 2 board with start (0, 0) and end (1, 1),
    a build_walls run whose first segment seeds at open point index 0 - the
    start position - places a wall on the start position. -/
theorem c10_counterexample :
    board2.start_point ∈ (build_walls board2 wg2 wallSegs).walls := by decide


/-! Dictionary lemmas shared by the queue and search proofs. -/

theorem dlookup_derase_ne {β : Type} (l : List (Pos × β)) (x y : Pos) (h : y ≠ x) :
    dlookup (derase l x) y = dlookup l y := by
  induction l with
  | nil => rfl
  | cons e rest ih =>
    obtain ⟨k, v⟩ := e
    by_cases hk : k = x
    · have hxy : ¬ (x = y) := fun hc => h hc.symm
      simp [derase, dlookup, hk, hxy, ih]
    · by_cases hky : k = y
      · have hyx : ¬ (y = x) := h
        simp [derase, dlookup, hk, hky, hyx]
      · simp [derase, dlookup, hk, hky, ih]

theorem dlookup_derase_self {β : Type} (l : List (Pos × β)) (x : Pos) :
    dlookup (derase l x) x = none := by
  induction l with
  | nil => rfl
  | cons e rest ih =>
    obtain ⟨k, v⟩ := e
    by_cases hk : k = x
    · simp [derase, dlookup, hk, ih]
    · simp [derase, dlookup, hk, ih]

theorem dlookup_dinsert_self {β : Type} (l : List (Pos × β)) (x : Pos) (v : β) :
    dlookup (dinsert l x v) x = some v := by
  simp [dinsert, dlookup]

theorem dlookup_dinsert_ne {β : Type} (l : List (Pos × β)) (x y : Pos) (v : β) (h : y ≠ x) :
    dlookup (dinsert l x v) y = dlookup l y := by
  simp only [dinsert, dlookup, if_neg (fun hc : x = y => h hc.symm)]
  exact dlookup_derase_ne l x y h

/-! C8: open points of the board. -/

/-- C8 counterexample: on the 2 by 2 no-walls board the point (2, 0) is in
    bounds under the inclusive rule and is not a wall, yet get_open_points does
    not yield it (the comprehension ranges are exclusive). -/
theorem c8_counterexample :
    board2.is_in_board (2, 0) = true ∧
    board2.is_wall (2, 0) = false ∧
    ((2, 0) : Pos) ∉ board2.get_open_points := by decide

/-- C8 amended: get_open_points yields exactly the non-wall points p with
    0 <= p.x < width and 0 <= p.y < height - the ranges are exclusive at
    width and height, so points with x = width or y = height are never
    yielded; the border strip is excluded here rather than by consumers. -/
theorem c8_amended_open_points_strict_bounds (b : Board) (p : Pos) :
    p ∈ b.get_open_points ↔
      0 ≤ p.1 ∧ p.1 < (b.width : Int) ∧ 0 ≤ p.2 ∧ p.2 < (b.height : Int) ∧ p ∉ b.walls := by
  obtain ⟨a, c⟩ := p
  unfold Board.get_open_points
  rw [List.mem_filter]
  simp [List.mem_flatMap, List.mem_map, List.mem_range, Board.is_wall]
  constructor
  · rintro ⟨⟨x, hx, hxa, y, hy, hyc⟩, hw⟩
    exact ⟨by omega, by omega, by omega, by omega, hw⟩
  · rintro ⟨h0, h1, h2, h3, hw⟩
    exact ⟨⟨a.toNat, by omega, ⟨c.toNat, by omega, by omega⟩, by omega⟩, hw⟩

theorem find?_first_block {α : Type} (pr : α → Bool) :
    ∀ (l1 : List α) (x : α) (l2 : List α),
      (∀ q ∈ l1, pr q = false) → pr x = true →
      (l1 ++ x :: l2).find? pr = some x := by
  intro l1
  induction l1 with
  | nil => intro x l2 _ hx; simp [List.find?, hx]
  | cons q rest ih =>
    intro x l2 h hx
    have hq := h q (List.mem_cons_self q rest)
    simp only [List.cons_append, List.find?, hq]
    exact ih x l2 (fun r hr => h r (List.mem_cons_of_mem q hr)) hx

theorem least_dist_point_acc (b : Board) (l : List Pos) :
    ∀ (d0 : Int) (p0 : Pos) (d : Int) (p : Pos),
      least_dist_point b l (some (d0, p0)) = some (d, p) →
      (d = d0 ∧ p = p0 ∧ ∀ q ∈ l, d0 ≤ b.sq_dist_to_end q) ∨
      (d < d0 ∧ d = b.sq_dist_to_end p ∧ ∃ l1 l2, l = l1 ++ p :: l2 ∧
        (∀ q ∈ l1, d < b.sq_dist_to_end q) ∧ (∀ q ∈ l2, d ≤ b.sq_dist_to_end q)) := by
  induction l with
  | nil =>
    intro d0 p0 d p h
    simp only [least_dist_point, Option.some.injEq, Prod.mk.injEq] at h
    exact Or.inl ⟨h.1.symm, h.2.symm, by simp⟩
  | cons q rest ih =>
    intro d0 p0 d p h
    simp only [least_dist_point] at h
    by_cases hlt : b.sq_dist_to_end q < d0
    · rw [if_pos hlt] at h
      rcases ih (b.sq_dist_to_end q) q d p h with ⟨hd, hp, hall⟩ | ⟨hd, hdp, l1, l2, heq, h1, h2⟩
      · refine Or.inr ⟨by omega, by rw [hd, hp], [], rest, by rw [hp]; rfl, by simp, ?_⟩
        intro r hr; rw [hd]; exact hall r hr
      · refine Or.inr ⟨by omega, hdp, q :: l1, l2, by rw [heq, List.cons_append], ?_, h2⟩
        intro r hr
        rcases List.mem_cons.mp hr with rfl | hr2
        · omega
        · exact h1 r hr2
    · rw [if_neg hlt] at h
      rcases ih d0 p0 d p h with ⟨hd, hp, hall⟩ | ⟨hd, hdp, l1, l2, heq, h1, h2⟩
      · refine Or.inl ⟨hd, hp, ?_⟩
        intro r hr
        rcases List.mem_cons.mp hr with rfl | hr2
        · omega
        · exact hall r hr2
      · refine Or.inr ⟨hd, hdp, q :: l1, l2, by rw [heq, List.cons_append], ?_, h2⟩
        intro r hr
        rcases List.mem_cons.mp hr with rfl | hr2
        · omega
        · exact h1 r hr2

theorem least_dist_point_none (b : Board) (l : List Pos) (d : Int) (p : Pos)
    (h : least_dist_point b l none = some (d, p)) :
    d = b.sq_dist_to_end p ∧ ∃ l1 l2, l = l1 ++ p :: l2 ∧
      (∀ q ∈ l1, d < b.sq_dist_to_end q) ∧ (∀ q ∈ l2, d ≤ b.sq_dist_to_end q) := by
  cases l with
  | nil => simp [least_dist_point] at h
  | cons q rest =>
    have h2 : least_dist_point b rest (some (b.sq_dist_to_end q, q)) = some (d, p) := h
    rcases least_dist_point_acc b rest _ _ _ _ h2 with ⟨hd, hp, hall⟩ | ⟨_, hdp, l1, l2, heq, h1, hle⟩
    · refine ⟨by rw [hd, hp], [], rest, by rw [hp]; rfl, by simp, ?_⟩
      intro r hr; rw [hd]; exact hall r hr
    · refine ⟨hdp, q :: l1, l2, by rw [heq, List.cons_append], ?_, hle⟩
      intro r hr
      rcases List.mem_cons.mp hr with rfl | hr2
      · omega
      · exact h1 r hr2

theorem c9_greedy_picks_first_closest (b : Board) (st : SimplePathfinder)
    (pt : Pos) (st2 : SimplePathfinder)
    (h : SimplePathfinder.next b st = .ok pt st2) :
    pt ∈ greedy_available_moves b st ∧
    (greedy_available_moves b st).find?
      (fun q => (greedy_available_moves b st).all
        (fun r => decide (b.sq_dist_to_end q ≤ b.sq_dist_to_end r))) = some pt := by
  unfold SimplePathfinder.next at h
  by_cases hend : st.cur = b.end_point
  · rw [if_pos hend] at h; simp at h
  rw [if_neg hend] at h
  rcases hm : least_dist_point b (greedy_available_moves b st) none with _ | ⟨d, lp⟩
  · rw [hm] at h; simp at h
  rw [hm] at h
  simp only [SPStep.ok.injEq] at h
  have hlp : lp = pt := h.1
  rw [hlp] at hm
  obtain ⟨hd, l1, l2, heq, hstrict, hle⟩ := least_dist_point_none b _ _ _ hm
  have hmem : pt ∈ greedy_available_moves b st := by
    rw [heq]; exact List.mem_append_right _ (List.mem_cons_self _ _)
  refine ⟨hmem, ?_⟩
  have hkey : ∀ r ∈ greedy_available_moves b st,
      b.sq_dist_to_end pt ≤ b.sq_dist_to_end r := by
    intro r hr
    rw [heq] at hr
    rcases List.mem_append.mp hr with hr1 | hr2
    · have := hstrict r hr1; omega
    · rcases List.mem_cons.mp hr2 with h3 | hr3
      · rw [h3]
      · have := hle r hr3; omega
  rw [heq]
  apply find?_first_block
  · intro q hq
    rw [Bool.eq_false_iff]
    intro hall
    rw [List.all_eq_true] at hall
    have h1 := hall pt (by rw [← heq]; exact hmem)
    simp only [decide_eq_true_eq] at h1
    have h2 := hstrict q hq
    omega
  · rw [List.all_eq_true]
    intro r hr
    simp only [decide_eq_true_eq]
    refine hkey r ?_
    rw [heq]; exact hr

/-- C9: whenever the greedy next call advances to a position pt, pt is the
    first element of the available move list (enumerated left, right, up, down
    from the current position, filtered to unvisited walkable points) whose
    squared distance to the end point is minimal over that list: find? locates
    the first move whose distance is at or below the distance of every
    available move, and that move is exactly pt. -/
theorem c9_first_closest_is_chosen (b : Board) (st : SimplePathfinder)
    (pt : Pos) (st2 : SimplePathfinder)
    (h : SimplePathfinder.next b st = .ok pt st2) :
    pt ∈ greedy_available_moves b st ∧
    (greedy_available_moves b st).find?
      (fun q => (greedy_available_moves b st).all
        (fun r => decide (b.sq_dist_to_end q ≤ b.sq_dist_to_end r))) = some pt :=
  c9_greedy_picks_first_closest b st pt st2 h

/-- C9 witness: on the 5 by 5 no-walls board the first greedy step advances,
    and the returned move (1, 0) is the first minimum-distance available move. -/
theorem c9_witness :
    SimplePathfinder.next board5 (SimplePathfinder.init board5) =
      .ok (1, 0) ⟨(1, 0), [some (0, 0), some (1, 0)]⟩ ∧
    ((1, 0) ∈ greedy_available_moves board5 (SimplePathfinder.init board5) ∧
    (greedy_available_moves board5 (SimplePathfinder.init board5)).find?
      (fun q => (greedy_available_moves board5 (SimplePathfinder.init board5)).all
        (fun r => decide (board5.sq_dist_to_end q ≤ board5.sq_dist_to_end r))) =
      some (1, 0)) :=
  ⟨by decide,
   c9_first_closest_is_chosen board5 (SimplePathfinder.init board5)
     (1, 0) ⟨(1, 0), [some (0, 0), some (1, 0)]⟩ (by decide)⟩

/-! C10: the wall generator only places previously open points. -/

theorem generate_wall_open_sub (b : Board) :
    ∀ (len : Nat) (wg : WallGen) (point : Pos) (dir : Int × Int)
      (tR tC : List Bool) (p : Pos),
      p ∈ (generate_wall b wg point dir len tR tC).openPts → p ∈ wg.openPts := by
  intro len
  induction len with
  | zero => intro wg point dir tR tC p hp; exact hp
  | succ n ih =>
    intro wg point dir tR tC p hp
    rw [generate_wall] at hp
    by_cases h1 : ¬ point ∈ wg.openPts
    · rw [if_pos h1] at hp; exact hp
    rw [if_neg h1] at hp
    by_cases h2 : (get_positions_ahead b point dir).any (fun q => !(wg.openPts.contains q)) = true
    · rw [if_pos h2] at hp; exact hp
    · rw [if_neg h2] at hp
      have := ih _ _ _ _ _ _ hp
      exact List.mem_of_mem_erase this

theorem generate_wall_walls_sub (b : Board) :
    ∀ (len : Nat) (wg : WallGen) (point : Pos) (dir : Int × Int)
      (tR tC : List Bool) (p : Pos),
      p ∈ (generate_wall b wg point dir len tR tC).walls →
      p ∈ wg.walls ∨ p ∈ wg.openPts := by
  intro len
  induction len with
  | zero => intro wg point dir tR tC p hp; exact Or.inl hp
  | succ n ih =>
    intro wg point dir tR tC p hp
    rw [generate_wall] at hp
    by_cases h1 : ¬ point ∈ wg.openPts
    · rw [if_pos h1] at hp; exact Or.inl hp
    rw [if_neg h1] at hp
    rw [not_not] at h1
    by_cases h2 : (get_positions_ahead b point dir).any (fun q => !(wg.openPts.contains q)) = true
    · rw [if_pos h2] at hp; exact Or.inl hp
    · rw [if_neg h2] at hp
      rcases ih _ _ _ _ _ _ hp with hw | ho
      · rcases List.mem_append.mp hw with hw1 | hw2
        · exact Or.inl hw1
        · rcases List.mem_cons.mp hw2 with rfl | hc
          · exact Or.inr h1
          · exact absurd hc (List.not_mem_nil p)
      · exact Or.inr (List.mem_of_mem_erase ho)

/-- C10 amended: every position the wall generator adds over a run of
    build_walls was in its open point list beforehand (each placed wall is
    removed from that list as it is placed); the start and end positions get
    no special protection, so the generator can wall either one whenever it is
    still an open point, as the counterexample run shows. -/
theorem c10_amended_walls_only_open_points (b : Board) :
    ∀ (segs : List WallSeg) (wg : WallGen) (p : Pos),
      p ∈ (build_walls b wg segs).walls → p ∈ wg.walls ∨ p ∈ wg.openPts := by
  intro segs
  induction segs with
  | nil => intro wg p hp; exact Or.inl hp
  | cons seg rest ih =>
    intro wg p hp
    rw [build_walls] at hp
    rcases hop : wg.openPts with _ | ⟨q, qs⟩
    · rw [hop] at hp; simp only at hp; exact Or.inl hp
    · rw [hop] at hp
      simp only at hp
      rw [← hop] at hp
      rcases ih _ _ hp with hw | ho
      · rcases generate_wall_walls_sub b _ _ _ _ _ _ _ hw with h1 | h2
        · exact Or.inl h1
        · exact Or.inr (hop ▸ h2)
      · exact Or.inr (hop ▸ generate_wall_open_sub b _ _ _ _ _ _ _ ho)

/-- C10 amended witness: in the concrete counterexample run the placed wall
    position (0, 0) was indeed one of the open points of the fresh generator. -/
theorem c10_amended_witness :
    ((0, 0) : Pos) ∈ (build_walls board2 wg2 wallSegs).walls ∧
    (((0, 0) : Pos) ∈ wg2.walls ∨ ((0, 0) : Pos) ∈ wg2.openPts) :=
  ⟨by decide, c10_amended_walls_only_open_points board2 wallSegs wg2 (0, 0) (by decide)⟩

/-! C4: delivery behaviour of the queue after put and replace. -/

theorem minEntry_mem : ∀ (l : List (Nat × Pos)) (e : Nat × Pos),
    minEntry l = some e → e ∈ l := by
  intro l
  induction l with
  | nil => intro e h; simp [minEntry] at h
  | cons a rest ih =>
    intro e h
    simp only [minEntry] at h
    split at h
    · injection h with h2
      exact h2 ▸ List.mem_cons_self a rest
    · split at h
      · injection h with h2
        exact h2 ▸ List.mem_cons_self a rest
      · next m hm _ =>
        injection h with h2
        exact List.mem_cons_of_mem a (h2 ▸ ih m hm)

theorem get_ok_dest (s : PriorityQueueSet) (e0 : Nat × Pos) (s2 : PriorityQueueSet)
    (hg : s.get = .ok e0 s2) :
    minEntry s.queue = some e0 ∧ s2.queue = s.queue.erase e0 ∧
    s2.items = derase s.items e0.2 := by
  unfold PriorityQueueSet.get at hg
  split at hg
  · simp at hg
  · next m hm =>
    split at hg
    · simp at hg
    · next v hl =>
      simp only [GetRes.ok.injEq] at hg
      obtain ⟨he, hs⟩ := hg
      subst he
      exact ⟨hm, by rw [← hs], by rw [← hs]⟩

theorem itemCount_erase_of_item (l : List (Nat × Pos)) (e : Nat × Pos) (x : Pos)
    (he : e ∈ l) (hx : e.2 = x) :
    itemCount x (l.erase e) + 1 = itemCount x l := by
  obtain ⟨l1, l2, hnotin, hl, herase⟩ := List.exists_erase_eq he
  rw [herase, hl]
  unfold itemCount
  rw [List.countP_append, List.countP_append, List.countP_cons]
  simp [hx]
  omega

theorem itemCount_erase_le (l : List (Nat × Pos)) (e : Nat × Pos) (x : Pos) :
    itemCount x (l.erase e) ≤ itemCount x l :=
  List.Sublist.countP_le _ (List.erase_sublist e l)

theorem popSeq_mem_queue : ∀ (n : Nat) (s : PriorityQueueSet) (e : Nat × Pos),
    e ∈ popSeq n s → e ∈ s.queue := by
  intro n
  induction n with
  | zero => intro s e h; simp [popSeq] at h
  | succ k ih =>
    intro s e h
    rw [popSeq] at h
    split at h
    · next e0 s2 hg =>
      obtain ⟨hmin, hq, _⟩ := get_ok_dest s e0 s2 hg
      rcases List.mem_cons.mp h with rfl | h2
      · exact minEntry_mem _ _ hmin
      · exact List.mem_of_mem_erase (hq ▸ ih s2 e h2)
    · simp at h

theorem popSeq_itemCount : ∀ (n : Nat) (s : PriorityQueueSet) (x : Pos),
    itemCount x (popSeq n s) ≤ itemCount x s.queue := by
  intro n
  induction n with
  | zero => intro s x; simp [popSeq, itemCount]
  | succ k ih =>
    intro s x
    rw [popSeq]
    split
    case h_2 => simp [itemCount]
    case h_1 e0 s2 hg =>
      obtain ⟨hmin, hq, _⟩ := get_ok_dest s e0 s2 hg
      have hmem : e0 ∈ s.queue := minEntry_mem _ _ hmin
      have hcons : itemCount x (e0 :: popSeq k s2) =
          itemCount x (popSeq k s2) + (if e0.2 = x then 1 else 0) := by
        unfold itemCount
        rw [List.countP_cons]
        by_cases hx : e0.2 = x
        · simp [hx]
        · simp [hx]
      rw [hcons]
      by_cases hx : e0.2 = x
      · have h1 := itemCount_erase_of_item s.queue e0 x hmem hx
        have h2 := ih s2 x
        rw [hq] at h2
        simp only [hx, if_pos]
        omega
      · have h1 := itemCount_erase_le s.queue e0 x
        have h2 := ih s2 x
        rw [hq] at h2
        simp only [hx, if_neg, if_false]
        omega

/-- C4 counterexample: starting from a queue that already holds the entry
    (0, (0, 0)), after put(0, (0, 0)) followed by replace(1, (0, 0)) the
    recorded priority is 1 as promised, but the very next pop delivers the
    item with the stale priority 0 - the stale entry with the old priority is
    delivered. -/
theorem c4_counterexample :
    c4state.priority (0, 0) = some 1 ∧
    c4state.get = .ok (0, (0, 0)) ⟨[(1, (0, 0))], []⟩ ∧
    popSeq 2 c4state = [(0, (0, 0))] := by decide

/-- C4 amended: for an item x with no entry on the queue, after put(pp, x)
    followed by replace(p2, x) the recorded priority of x is p2, the queue
    carries exactly one entry for x, namely (p2, x), and over any number of
    subsequent pops x is delivered at most once and never with the stale
    priority pp. -/
theorem c4_amended_fresh_item_replace (s : PriorityQueueSet) (x : Pos)
    (pp p2 : Nat) (n : Nat)
    (hfree : itemCount x s.queue = 0) (hne : pp ≠ p2) :
    ((s.put pp x).replace p2 x).priority x = some p2 ∧
    itemCount x ((s.put pp x).replace p2 x).queue = 1 ∧
    (p2, x) ∈ ((s.put pp x).replace p2 x).queue ∧
    itemCount x (popSeq n ((s.put pp x).replace p2 x)) ≤ 1 ∧
    (pp, x) ∉ popSeq n ((s.put pp x).replace p2 x) := by
  have hnotin : (pp, x) ∉ s.queue := by
    intro hmem
    have h0 := List.countP_eq_zero.mp hfree (pp, x) hmem
    simp at h0
  have hq : ((s.put pp x).replace p2 x).queue = s.queue ++ [(p2, x)] := by
    simp only [PriorityQueueSet.replace, PriorityQueueSet.put, dlookup_dinsert_self]
    rw [List.erase_append_right _ hnotin, List.erase_cons_head]
    simp
  have hitems : ((s.put pp x).replace p2 x).items = dinsert (dinsert s.items x pp) x p2 := by
    simp only [PriorityQueueSet.replace, PriorityQueueSet.put, dlookup_dinsert_self]
  have hcount : itemCount x ((s.put pp x).replace p2 x).queue = 1 := by
    rw [hq]
    unfold itemCount at hfree ⊢
    rw [List.countP_append, hfree]
    simp [List.countP_cons]
  refine ⟨?_, hcount, ?_, ?_, ?_⟩
  · show dlookup ((s.put pp x).replace p2 x).items x = some p2
    rw [hitems, dlookup_dinsert_self]
  · rw [hq]
    exact List.mem_append_right _ (List.mem_cons_self _ _)
  · have := popSeq_itemCount n ((s.put pp x).replace p2 x) x
    omega
  · intro hmem
    have h1 := popSeq_mem_queue n _ _ hmem
    rw [hq] at h1
    rcases List.mem_append.mp h1 with h2 | h3
    · exact hnotin h2
    · rcases List.mem_cons.mp h3 with h4 | h5
      · exact hne (by injection h4)
      · exact List.not_mem_nil _ h5

/-- C4 amended witness: from the empty queue with x = (0, 0), pp = 0, p2 = 1
    and three pops, the hypotheses hold and so do all five conclusions. -/
theorem c4_amended_witness :
    itemCount (0, 0) (⟨[], []⟩ : PriorityQueueSet).queue = 0 ∧
    (0 : Nat) ≠ 1 ∧
    ((((⟨[], []⟩ : PriorityQueueSet).put 0 (0, 0)).replace 1 (0, 0)).priority (0, 0) = some 1 ∧
     itemCount (0, 0) ((((⟨[], []⟩ : PriorityQueueSet).put 0 (0, 0)).replace 1 (0, 0))).queue = 1 ∧
     (1, (0, 0)) ∈ ((((⟨[], []⟩ : PriorityQueueSet).put 0 (0, 0)).replace 1 (0, 0))).queue ∧
     itemCount (0, 0) (popSeq 3 (((⟨[], []⟩ : PriorityQueueSet).put 0 (0, 0)).replace 1 (0, 0))) ≤ 1 ∧
     (0, (0, 0)) ∉ popSeq 3 (((⟨[], []⟩ : PriorityQueueSet).put 0 (0, 0)).replace 1 (0, 0))) :=
  ⟨by decide, by decide,
   c4_amended_fresh_item_replace ⟨[], []⟩ (0, 0) 0 1 3 (by decide) (by decide)⟩

/-! C5 support: indices into the closed list, order facts for the heap. -/

theorem posIdx_lt_length (l : List Pos) (x : Pos) (h : x ∈ l) :
    posIdx l x < l.length := by
  induction l with
  | nil => simp at h
  | cons a rest ih =>
    by_cases ha : a = x
    · simp [posIdx, ha]
    · rcases List.mem_cons.mp h with h1 | h2
      · exact absurd h1.symm ha
      · simp only [posIdx, ha, if_neg, if_false, List.length_cons]
        exact Nat.succ_lt_succ (ih h2)

theorem posIdx_append_of_mem (l : List Pos) (x c : Pos) (h : x ∈ l) :
    posIdx (l ++ [c]) x = posIdx l x := by
  induction l with
  | nil => simp at h
  | cons a rest ih =>
    by_cases ha : a = x
    · simp [posIdx, ha]
    · rcases List.mem_cons.mp h with h1 | h2
      · exact absurd h1.symm ha
      · simp [posIdx, ha, ih h2]

theorem posIdx_append_self (l : List Pos) (c : Pos) (h : c ∉ l) :
    posIdx (l ++ [c]) c = l.length := by
  induction l with
  | nil => simp [posIdx]
  | cons a rest ih =>
    have ha : a ≠ c := fun hc => h (hc ▸ List.mem_cons_self a rest)
    have h2 : c ∉ rest := fun hc => h (List.mem_cons_of_mem a hc)
    simp [posIdx, ha, ih h2]

theorem derase_subset {β : Type} (l : List (Pos × β)) (x : Pos) :
    ∀ e ∈ derase l x, e ∈ l := by
  induction l with
  | nil => intro e h; simp [derase] at h
  | cons a rest ih =>
    obtain ⟨k, v⟩ := a
    intro e h
    by_cases hk : k = x
    · simp only [derase, if_pos hk] at h
      exact List.mem_cons_of_mem _ (ih e h)
    · simp only [derase, if_neg hk] at h
      rcases List.mem_cons.mp h with rfl | h2
      · exact List.mem_cons_self _ _
      · exact List.mem_cons_of_mem _ (ih e h2)

theorem entryLE_total (a c : Nat × Pos) : entryLE a c = true ∨ entryLE c a = true := by
  unfold entryLE
  rcases a with ⟨pa, xa, ya⟩
  rcases c with ⟨pc, xc, yc⟩
  simp only [decide_eq_true_eq]
  omega

theorem entryLE_trans (a c e : Nat × Pos)
    (h1 : entryLE a c = true) (h2 : entryLE c e = true) : entryLE a e = true := by
  unfold entryLE at *
  rcases a with ⟨pa, xa, ya⟩
  rcases c with ⟨pc, xc, yc⟩
  rcases e with ⟨pe, xe, ye⟩
  simp only [decide_eq_true_eq] at *
  omega

theorem entryLE_prio (a c : Nat × Pos) (h : entryLE a c = true) : a.1 ≤ c.1 := by
  unfold entryLE at h
  simp only [decide_eq_true_eq] at h
  omega

theorem entryLE_refl (a : Nat × Pos) : entryLE a a = true := by
  unfold entryLE
  simp

theorem minEntry_isSome (a : Nat × Pos) (l : List (Nat × Pos)) :
    (minEntry (a :: l)).isSome = true := by
  simp only [minEntry]
  split
  · rfl
  · split <;> rfl

theorem minEntry_le : ∀ (l : List (Nat × Pos)) (e : Nat × Pos),
    minEntry l = some e → ∀ e2 ∈ l, entryLE e e2 = true := by
  intro l
  induction l with
  | nil => intro e h; simp [minEntry] at h
  | cons a rest ih =>
    intro e h e2 he2
    simp only [minEntry] at h
    split at h
    · next hm =>
      injection h with h2
      subst h2
      rcases List.mem_cons.mp he2 with rfl | h3
      · exact entryLE_refl _
      · cases rest with
        | nil => simp at h3
        | cons r rs =>
          have hs := minEntry_isSome r rs
          rw [hm] at hs
          simp at hs
    · next m hm =>
      split at h
      · next hle =>
        injection h with h2
        subst h2
        rcases List.mem_cons.mp he2 with rfl | h3
        · exact entryLE_refl _
        · exact entryLE_trans _ _ _ hle (ih m hm e2 h3)
      · next hle =>
        injection h with h2
        subst h2
        rcases List.mem_cons.mp he2 with rfl | h3
        · rcases entryLE_total e2 m with h4 | h4
          · exact absurd h4 hle
          · exact h4
        · exact ih m hm e2 h3

theorem erase_keys_ne (l : List (Nat × Pos)) (e : Nat × Pos)
    (hnodup : (l.map Prod.snd).Nodup) (he : e ∈ l) :
    ∀ e2 ∈ l.erase e, e2.2 ≠ e.2 := by
  obtain ⟨l1, l2, hnotin, hl, herase⟩ := List.exists_erase_eq he
  rw [herase]
  subst hl
  intro e2 he2
  rw [List.map_append, List.map_cons] at hnodup
  rcases List.mem_append.mp he2 with h1 | h2
  · have hdisj := (List.nodup_append.mp hnodup).2.2
    intro hc
    exact hdisj (List.mem_map_of_mem Prod.snd h1) (hc ▸ List.mem_cons_self _ _)
  · have hmid := (List.nodup_append.mp hnodup).2.1
    have := (List.nodup_cons.mp hmid).1
    intro hc
    exact this (hc ▸ List.mem_map_of_mem Prod.snd h2)

theorem pqinv_put (s : PriorityQueueSet) (p : Nat) (x : Pos)
    (inv : PQInv s) (habs : dlookup s.items x = none) :
    PQInv (s.put p x) := by
  have hxkeys : x ∉ s.queue.map Prod.snd := by
    intro hc
    obtain ⟨e, he, hex⟩ := List.mem_map.mp hc
    have := inv.q2i e he
    rw [hex] at this
    rw [habs] at this
    exact Option.noConfusion this
  refine ⟨?_, ?_, ?_⟩
  · show ((s.queue ++ [(p, x)]).map Prod.snd).Nodup
    rw [List.map_append]
    rw [List.nodup_append]
    refine ⟨inv.nodupKeys, List.nodup_singleton _, ?_⟩
    intro a ha hb
    simp only [List.map_cons, List.map_nil, List.mem_singleton] at hb
    exact hxkeys (hb ▸ ha)
  · intro e he
    rcases List.mem_append.mp he with h1 | h2
    · have hne : e.2 ≠ x := by
        intro hc
        exact hxkeys (hc ▸ List.mem_map_of_mem Prod.snd h1)
      show dlookup (dinsert s.items x p) e.2 = some e.1
      rw [dlookup_dinsert_ne _ _ _ _ hne]
      exact inv.q2i e h1
    · rcases List.mem_singleton.mp h2 with rfl
      show dlookup (dinsert s.items x p) x = some p
      exact dlookup_dinsert_self _ _ _
  · intro y q hy
    by_cases hyx : y = x
    · rw [show dlookup (s.put p x).items y = dlookup (dinsert s.items x p) y from rfl,
        hyx, dlookup_dinsert_self] at hy
      injection hy with h2
      subst h2
      rw [hyx]
      exact List.mem_append_right _ (List.mem_cons_self _ _)
    · rw [show dlookup (s.put p x).items y = dlookup (dinsert s.items x p) y from rfl,
        dlookup_dinsert_ne _ _ _ _ hyx] at hy
      exact List.mem_append_left _ (inv.i2q y q hy)

theorem pqinv_get (s : PriorityQueueSet) (e0 : Nat × Pos) (s2 : PriorityQueueSet)
    (inv : PQInv s) (hg : s.get = .ok e0 s2) :
    PQInv s2 ∧ e0 ∈ s.queue ∧
    (∀ e2 ∈ s2.queue, e2.2 ≠ e0.2) ∧
    (∀ e2 ∈ s2.queue, e2 ∈ s.queue) := by
  obtain ⟨hmin, hq, hi⟩ := get_ok_dest s e0 s2 hg
  have hmem : e0 ∈ s.queue := minEntry_mem _ _ hmin
  have hkeysne : ∀ e2 ∈ s2.queue, e2.2 ≠ e0.2 := by
    rw [hq]
    exact erase_keys_ne s.queue e0 inv.nodupKeys hmem
  have hsub : ∀ e2 ∈ s2.queue, e2 ∈ s.queue := by
    rw [hq]
    intro e2 he2
    exact List.mem_of_mem_erase he2
  refine ⟨⟨?_, ?_, ?_⟩, hmem, hkeysne, hsub⟩
  · rw [hq]
    exact inv.nodupKeys.sublist (List.Sublist.map Prod.snd (List.erase_sublist e0 s.queue))
  · intro e he
    have h1 := inv.q2i e (hsub e he)
    rw [hi, dlookup_derase_ne _ _ _ (hkeysne e he)]
    exact h1
  · intro y q hy
    rw [hi] at hy
    by_cases hyx : y = e0.2
    · rw [hyx, dlookup_derase_self] at hy
      exact Option.noConfusion hy
    · rw [dlookup_derase_ne _ _ _ hyx] at hy
      have h2 := inv.i2q y q hy
      rw [hq]
      refine (List.mem_erase_of_ne ?_).mpr h2
      intro hc
      exact hyx (congrArg Prod.snd hc)

theorem relax_preserves (d : Nat) (n : Pos) (st : BFSState) (succ : Pos)
    (hn : n ∈ st.closed) (inv : MidInv d st) :
    MidInv d (relax_successor d n st succ) ∧
    (relax_successor d n st succ).closed = st.closed ∧
    (relax_successor d n st succ).pops = st.pops := by
  unfold relax_successor
  split
  · next hguard =>
    obtain ⟨hnc, hno⟩ := hguard
    have habs : dlookup st.openQ.items succ = none := by
      unfold PriorityQueueSet.contains at hno
      cases hl : dlookup st.openQ.items succ
      · rfl
      · rw [hl] at hno; simp at hno
    have hsuccputs : succ ∉ st.puts := by
      intro hc
      rcases (inv.putsCover succ).mp hc with h1 | h2
      · rw [habs] at h1; simp at h1
      · exact hnc h2
    refine ⟨⟨?_, inv.closedNodup, ?_, ?_, inv.popsEq, ?_, ?_, ?_, ?_, ?_,
      inv.reps0, inv.keyErrs0⟩, rfl, rfl⟩
    · exact pqinv_put _ _ _ inv.pq habs
    · intro x hx
      have hne : x ≠ succ := fun hc => hnc (hc ▸ hx)
      show dlookup (dinsert st.openQ.items succ (d + 1)) x = none
      rw [dlookup_dinsert_ne _ _ _ _ hne]
      exact inv.closedItems x hx
    · intro e he
      simp only [PriorityQueueSet.put] at he
      rcases List.mem_append.mp he with h1 | h2
      · exact inv.rangeBound e h1
      · rcases List.mem_singleton.mp h2 with rfl
        exact ⟨Nat.le_succ d, Nat.le_refl _⟩
    · show (st.puts ++ [succ]).Nodup
      rw [List.nodup_append]
      refine ⟨inv.putsNodup, List.nodup_singleton _, ?_⟩
      intro a ha hb
      rw [List.mem_singleton] at hb
      exact hsuccputs (hb ▸ ha)
    · intro x
      show x ∈ st.puts ++ [succ] ↔
        (dlookup (dinsert st.openQ.items succ (d + 1)) x).isSome = true ∨ x ∈ st.closed
      constructor
      · intro hx
        rcases List.mem_append.mp hx with h1 | h2
        · rcases (inv.putsCover x).mp h1 with h3 | h4
          · left
            by_cases hxs : x = succ
            · rw [hxs, dlookup_dinsert_self]; rfl
            · rw [dlookup_dinsert_ne _ _ _ _ hxs]; exact h3
          · right; exact h4
        · rcases List.mem_singleton.mp h2 with rfl
          left
          rw [dlookup_dinsert_self]; rfl
      · intro hx
        rcases hx with h1 | h2
        · by_cases hxs : x = succ
          · rw [hxs]; exact List.mem_append_right _ (List.mem_cons_self _ _)
          · rw [dlookup_dinsert_ne _ _ _ _ hxs] at h1
            exact List.mem_append_left _ ((inv.putsCover x).mpr (Or.inl h1))
        · exact List.mem_append_left _ ((inv.putsCover x).mpr (Or.inr h2))
    · intro pr hpr
      simp only [dinsert] at hpr
      rcases List.mem_cons.mp hpr with rfl | h2
      · exact hn
      · exact inv.parClosed pr (derase_subset _ _ pr h2)
    · intro pr hpr hpc
      simp only [dinsert] at hpr
      rcases List.mem_cons.mp hpr with rfl | h2
      · exact absurd hpc hnc
      · exact inv.parIdx pr (derase_subset _ _ pr h2) hpc
    · intro pr hpr
      simp only [dinsert] at hpr
      rcases List.mem_cons.mp hpr with rfl | h2
      · exact List.mem_append_right _ (List.mem_cons_self _ _)
      · exact List.mem_append_left _ (inv.parKeysPuts pr (derase_subset _ _ pr h2))
  · next hguard =>
    split
    · exact ⟨inv, rfl, rfl⟩
    · next prev hprev =>
      have hqm : (prev, succ) ∈ st.openQ.queue := inv.pq.i2q succ prev hprev
      have hub := (inv.rangeBound _ hqm).2
      rw [if_neg (by omega : ¬ (d + 1 < prev))]
      exact ⟨inv, rfl, rfl⟩

theorem dlookup_mem {β : Type} : ∀ (l : List (Pos × β)) (x : Pos) (v : β),
    dlookup l x = some v → (x, v) ∈ l := by
  intro l
  induction l with
  | nil => intro x v h; simp [dlookup] at h
  | cons e rest ih =>
    obtain ⟨k2, v2⟩ := e
    intro x v h
    simp only [dlookup] at h
    by_cases hk : k2 = x
    · rw [if_pos hk] at h
      injection h with h3
      rw [hk, h3]
      exact List.mem_cons_self _ _
    · rw [if_neg hk] at h
      exact List.mem_cons_of_mem _ (ih x v h)

theorem foldl_relax_preserves (d : Nat) (n : Pos) :
    ∀ (moves : List Pos) (st : BFSState), n ∈ st.closed → MidInv d st →
      MidInv d (moves.foldl (relax_successor d n) st) ∧
      (moves.foldl (relax_successor d n) st).closed = st.closed ∧
      (moves.foldl (relax_successor d n) st).pops = st.pops := by
  intro moves
  induction moves with
  | nil => intro st hn inv; exact ⟨inv, rfl, rfl⟩
  | cons m rest ih =>
    intro st hn inv
    obtain ⟨inv1, hc1, hp1⟩ := relax_preserves d n st m hn inv
    obtain ⟨inv2, hc2, hp2⟩ := ih (relax_successor d n st m) (hc1.symm ▸ hn) inv1
    exact ⟨inv2, by rw [List.foldl_cons, hc2, hc1], by rw [List.foldl_cons, hp2, hp1]⟩

theorem pop_step (st : BFSState) (d : Nat) (n : Pos) (q2 : PriorityQueueSet)
    (inv : SInv st) (hg : st.openQ.get = .ok (d, n) q2) :
    n ∉ st.closed ∧
    MidInv d { st with openQ := q2, closed := st.closed ++ [n], pops := st.pops ++ [n] } := by
  obtain ⟨pq2, hmem, hkeysne, hsub⟩ := pqinv_get st.openQ (d, n) q2 inv.pq hg
  obtain ⟨hmin, hq, hi⟩ := get_ok_dest st.openQ (d, n) q2 hg
  have hlook : dlookup st.openQ.items n = some d := inv.pq.q2i (d, n) hmem
  have hnc : n ∉ st.closed := by
    intro hc
    rw [inv.closedItems n hc] at hlook
    exact Option.noConfusion hlook
  refine ⟨hnc, pq2, ?_, ?_, ?_, ?_, inv.putsNodup, ?_, ?_, ?_, ?_, inv.reps0, inv.keyErrs0⟩
  · show (st.closed ++ [n]).Nodup
    rw [List.nodup_append]
    refine ⟨inv.closedNodup, List.nodup_singleton _, ?_⟩
    intro a ha hb
    rw [List.mem_singleton] at hb
    exact hnc (hb ▸ ha)
  · intro x hx
    rcases List.mem_append.mp hx with h1 | h2
    · have hxn : x ≠ n := fun hc => hnc (hc ▸ h1)
      rw [hi]
      show dlookup (derase st.openQ.items n) x = none
      rw [dlookup_derase_ne _ _ _ hxn]
      exact inv.closedItems x h1
    · rcases List.mem_singleton.mp h2 with rfl
      rw [hi]
      exact dlookup_derase_self _ _
  · intro e he
    have hin := hsub e he
    constructor
    · exact entryLE_prio _ _ (minEntry_le _ _ hmin e hin)
    · exact inv.pairBound e hin (d, n) hmem
  · show st.pops ++ [n] = st.closed ++ [n]
    rw [inv.popsEq]
  · intro x
    show x ∈ st.puts ↔ (dlookup q2.items x).isSome = true ∨ x ∈ st.closed ++ [n]
    by_cases hxn : x = n
    · subst hxn
      constructor
      · intro _
        exact Or.inr (List.mem_append_right _ (List.mem_cons_self _ _))
      · intro _
        exact (inv.putsCover x).mpr (Or.inl (by rw [hlook]; rfl))
    · rw [hi, dlookup_derase_ne _ _ _ hxn]
      constructor
      · intro hx
        rcases (inv.putsCover x).mp hx with h1 | h2
        · exact Or.inl h1
        · exact Or.inr (List.mem_append_left _ h2)
      · intro hx
        rcases hx with h1 | h2
        · exact (inv.putsCover x).mpr (Or.inl h1)
        · rcases List.mem_append.mp h2 with h3 | h4
          · exact (inv.putsCover x).mpr (Or.inr h3)
          · exact absurd (List.mem_singleton.mp h4) hxn
  · intro pr hpr
    exact List.mem_append_left _ (inv.parClosed pr hpr)
  · intro pr hpr hpc
    have hpr2 : pr.2 ∈ st.closed := inv.parClosed pr hpr
    rw [posIdx_append_of_mem _ _ _ hpr2]
    rcases List.mem_append.mp hpc with h1 | h2
    · rw [posIdx_append_of_mem _ _ _ h1]
      exact inv.parIdx pr hpr h1
    · rcases List.mem_singleton.mp h2 with hn2
      rw [hn2, posIdx_append_self _ _ hnc]
      exact posIdx_lt_length _ _ hpr2
  · intro pr hpr
    exact inv.parKeysPuts pr hpr

theorem trace_aux_nodup (parents : List (Pos × Pos)) (closed : List Pos)
    (hpc : ∀ pr ∈ parents, pr.2 ∈ closed)
    (hpi : ∀ pr ∈ parents, pr.1 ∈ closed → posIdx closed pr.2 < posIdx closed pr.1) :
    ∀ (fuel : Nat) (point : Pos) (acc res : List Pos),
      point ∈ closed →
      (∀ a ∈ acc, a ∈ closed) →
      acc.Pairwise (fun a c => posIdx closed c < posIdx closed a) →
      (∀ a ∈ acc, a = point ∨ posIdx closed point < posIdx closed a) →
      trace_aux parents fuel point acc = some res →
      res.Nodup := by
  intro fuel
  induction fuel with
  | zero => intro point acc res _ _ _ _ h; simp [trace_aux] at h
  | succ k ih =>
    intro point acc res hpt hacc hpw hrel h
    rw [trace_aux] at h
    split at h
    · injection h with h2
      subst h2
      rw [List.nodup_reverse]
      refine hpw.imp ?_
      intro a c hlt heq
      rw [heq] at hlt
      exact Nat.lt_irrefl _ hlt
    · next nxt hnxt =>
      have hpr : (point, nxt) ∈ parents := dlookup_mem parents point nxt hnxt
      have hnxtc : nxt ∈ closed := hpc (point, nxt) hpr
      have hlt : posIdx closed nxt < posIdx closed point := hpi (point, nxt) hpr hpt
      refine ih nxt (acc ++ [nxt]) res hnxtc ?_ ?_ ?_ h
      · intro a ha
        rcases List.mem_append.mp ha with h1 | h2
        · exact hacc a h1
        · rcases List.mem_singleton.mp h2 with rfl
          exact hnxtc
      · rw [List.pairwise_append]
        refine ⟨hpw, List.pairwise_singleton _ _, ?_⟩
        intro a ha c hc
        rcases List.mem_singleton.mp hc with rfl
        rcases hrel a ha with h1 | h2
        · rw [h1]; exact hlt
        · exact Nat.lt_trans hlt h2
      · intro a ha
        rcases List.mem_append.mp ha with h1 | h2
        · right
          rcases hrel a h1 with h3 | h4
          · rw [h3]; exact hlt
          · exact Nat.lt_trans hlt h4
        · left; exact List.mem_singleton.mp h2

theorem mid_to_sinv (d : Nat) (st : BFSState) (inv : MidInv d st) : SInv st :=
  ⟨inv.pq, inv.closedNodup, inv.closedItems,
   fun e1 h1 e2 h2 => by
     have b1 := inv.rangeBound e1 h1
     have b2 := inv.rangeBound e2 h2
     omega,
   inv.popsEq, inv.putsNodup, inv.putsCover, inv.parClosed, inv.parIdx,
   inv.parKeysPuts, inv.reps0, inv.keyErrs0⟩

theorem sinv_init (b : Board) : SInv (BFSState.init b) := by
  refine ⟨⟨?_, ?_, ?_⟩, List.nodup_nil, ?_, ?_, rfl, List.nodup_singleton _, ?_,
    ?_, ?_, ?_, rfl, rfl⟩
  · show ([(0, b.start_point)].map Prod.snd).Nodup
    simp
  · intro e he
    rcases List.mem_singleton.mp he with rfl
    show dlookup (dinsert [] b.start_point 0) b.start_point = some 0
    exact dlookup_dinsert_self _ _ _
  · intro x p h
    show (p, x) ∈ [(0, b.start_point)]
    by_cases hs : x = b.start_point
    · rw [show dlookup (BFSState.init b).openQ.items x = dlookup (dinsert [] b.start_point 0) x from rfl,
        hs, dlookup_dinsert_self] at h
      injection h with h2
      rw [← h2, hs]
      exact List.mem_cons_self _ _
    · rw [show dlookup (BFSState.init b).openQ.items x = dlookup (dinsert [] b.start_point 0) x from rfl,
        dlookup_dinsert_ne _ _ _ _ hs] at h
      exact absurd h (by simp [dlookup])
  · intro x hx
    exact absurd hx (List.not_mem_nil x)
  · intro e1 h1 e2 h2
    rcases List.mem_singleton.mp h1 with rfl
    rcases List.mem_singleton.mp h2 with rfl
    exact Nat.le_succ 0
  · intro x
    constructor
    · intro hx
      have hxeq := List.mem_singleton.mp hx
      left
      rw [show dlookup (BFSState.init b).openQ.items x = dlookup (dinsert [] b.start_point 0) x from rfl,
        hxeq, dlookup_dinsert_self]
      rfl
    · intro hx
      rcases hx with h1 | h2
      · by_cases hs : x = b.start_point
        · rw [hs]; exact List.mem_cons_self _ _
        · rw [show dlookup (BFSState.init b).openQ.items x = dlookup (dinsert [] b.start_point 0) x from rfl,
            dlookup_dinsert_ne _ _ _ _ hs] at h1
          simp [dlookup] at h1
      · exact absurd h2 (List.not_mem_nil x)
  · intro pr hpr
    exact absurd hpr (List.not_mem_nil pr)
  · intro pr hpr
    exact absurd hpr (List.not_mem_nil pr)
  · intro pr hpr
    exact absurd hpr (List.not_mem_nil pr)

theorem find_path_loop_invariant (b : Board) :
    ∀ (fuel : Nat) (st : BFSState), SInv st →
      SInv (find_path_loop b fuel st).1 ∧
      (∀ l, (find_path_loop b fuel st).2 = .path l → l.Nodup) ∧
      (find_path_loop b fuel st).2 ≠ .popKeyError := by
  intro fuel
  induction fuel with
  | zero =>
    intro st inv
    exact ⟨inv, fun l h => by simp [find_path_loop] at h, by simp [find_path_loop]⟩
  | succ k ih =>
    intro st inv
    rw [find_path_loop]
    split
    · exact ⟨inv, fun l h => by simp at h, by simp⟩
    · next q hg =>
      exfalso
      unfold PriorityQueueSet.get at hg
      split at hg
      · exact GetRes.noConfusion hg
      · next e hm =>
        split at hg
        · next hl =>
          have hmem := minEntry_mem _ _ hm
          have h2 := inv.pq.q2i e hmem
          rw [hl] at h2
          exact Option.noConfusion h2
        · exact GetRes.noConfusion hg
    · next d n q2 hg =>
      obtain ⟨hnc, hmid⟩ := pop_step st d n q2 inv hg
      rw [if_neg hnc]
      have hnc2 : n ∈ st.closed ++ [n] := List.mem_append_right _ (List.mem_cons_self _ _)
      by_cases hend : n = b.end_point
      · rw [if_pos hend]
        split
        · next l htr =>
          refine ⟨mid_to_sinv d _ hmid, ?_, by simp⟩
          intro l2 hl2
          simp only [BFSOutcome.path.injEq] at hl2
          subst hl2
          exact trace_aux_nodup _ _ hmid.parClosed hmid.parIdx _ n [n] _ hnc2
            (fun a ha => (List.mem_singleton.mp ha) ▸ hnc2)
            (List.pairwise_singleton _ _)
            (fun a ha => Or.inl (List.mem_singleton.mp ha))
            htr
        · exact ⟨mid_to_sinv d _ hmid, fun l h => by simp at h, by simp⟩
      · rw [if_neg hend]
        obtain ⟨hmid2, _, _⟩ :=
          foldl_relax_preserves d n (get_available_moves b n) _ hnc2 hmid
        exact ih _ (mid_to_sinv d _ hmid2)

/-- C5: over every run of find_path, the replace branch of the relaxation never
    executes (in particular the KeyError site inside it is never reached), no
    position is ever put on the open queue twice, no position is popped twice,
    and any returned path visits no position twice. When a successor is in the
    closed set but absent from the open queue its priority reads None and the
    Python 2 comparison fails; when it is on the open queue its priority is at
    most cost_so_far + 1, so the improvement test is always false. -/
theorem c5_no_duplicate_work (b : Board) (fuel : Nat) :
    (find_path b fuel).1.reps = 0 ∧
    (find_path b fuel).1.keyErrs = 0 ∧
    (find_path b fuel).1.puts.Nodup ∧
    (find_path b fuel).1.pops.Nodup ∧
    (∀ l, (find_path b fuel).2 = .path l → l.Nodup) := by
  unfold find_path
  obtain ⟨hs, hp, _⟩ := find_path_loop_invariant b fuel (BFSState.init b) (sinv_init b)
  exact ⟨hs.reps0, hs.keyErrs0, hs.putsNodup, by rw [hs.popsEq]; exact hs.closedNodup, hp⟩

/-- C5 witness: on the 2 by 2 no-walls board the run returns the path
    [(0,0),(0,1),(1,1)]; the run performed no replace, reached no KeyError,
    queued 4 distinct positions, popped distinct positions, and the returned
    path has no duplicates. -/
theorem c5_witness :
    (find_path board2 10).1.reps = 0 ∧
    (find_path board2 10).1.keyErrs = 0 ∧
    (find_path board2 10).1.puts = [(0, 0), (1, 0), (0, 1), (1, 1), (0, 2), (2, 0), (1, 2)] ∧
    (find_path board2 10).2 = .path [(0, 0), (0, 1), (1, 1)] ∧
    ([(0, 0), (0, 1), (1, 1)] : List Pos).Nodup :=
  ⟨(c5_no_duplicate_work board2 10).1,
   (c5_no_duplicate_work board2 10).2.1,
   by decide, by decide,
   (c5_no_duplicate_work board2 10).2.2.2.2 [(0, 0), (0, 1), (1, 1)] (by decide)⟩

/-! Geometry of the no-walls grid, for the general C3 theorem. -/

theorem manhattan_eq_zero (a q : Pos) : manhattan a q = 0 ↔ q = a := by
  unfold manhattan
  constructor
  · intro h
    obtain ⟨a1, a2⟩ := a
    obtain ⟨q1, q2⟩ := q
    simp only [Prod.mk.injEq]
    omega
  · intro h
    subst h
    simp

theorem mem_ite_singleton {c : Prop} [Decidable c] {x v : Pos}
    (h : x ∈ (if c then [v] else ([] : List Pos))) : x = v ∧ c := by
  by_cases hc : c
  · rw [if_pos hc] at h
    exact ⟨List.mem_singleton.mp h, hc⟩
  · rw [if_neg hc] at h
    exact absurd h (List.not_mem_nil x)

theorem mem_valid_moves (b : Board) (p q : Pos) (h : q ∈ get_valid_moves b p) :
    (q = (p.1 - 1, p.2) ∧ 0 < p.1) ∨ (q = (p.1 + 1, p.2) ∧ p.1 < (b.width : Int)) ∨
    (q = (p.1, p.2 - 1) ∧ 0 < p.2) ∨ (q = (p.1, p.2 + 1) ∧ p.2 < (b.height : Int)) := by
  unfold get_valid_moves at h
  rcases List.mem_append.mp h with h123 | h4
  · rcases List.mem_append.mp h123 with h12 | h3
    · rcases List.mem_append.mp h12 with h1 | h2
      · exact Or.inl (mem_ite_singleton h1)
      · exact Or.inr (Or.inl (mem_ite_singleton h2))
    · exact Or.inr (Or.inr (Or.inl (mem_ite_singleton h3)))
  · exact Or.inr (Or.inr (Or.inr (mem_ite_singleton h4)))

theorem valid_path_point_of_no_walls (b : Board) (hw : b.walls = []) (p : Pos) :
    b.is_valid_path_point p = b.is_in_board p := by
  unfold Board.is_valid_path_point Board.is_wall
  rw [hw]
  simp

theorem avail_inb_step (b : Board) (hw : b.walls = []) (t n q : Pos)
    (hq : q ∈ get_available_moves b n) :
    b.is_in_board q = true ∧
    (manhattan t q = manhattan t n + 1 ∨ manhattan t q + 1 = manhattan t n) := by
  rw [show get_available_moves b n = (get_valid_moves b n).filter (b.is_valid_path_point) from rfl] at hq
  obtain ⟨hmem, hvp⟩ := List.mem_filter.mp hq
  rw [valid_path_point_of_no_walls b hw] at hvp
  refine ⟨hvp, ?_⟩
  obtain ⟨n1, n2⟩ := n
  obtain ⟨t1, t2⟩ := t
  rcases mem_valid_moves b _ q hmem with ⟨rfl, _⟩ | ⟨rfl, _⟩ | ⟨rfl, _⟩ | ⟨rfl, _⟩ <;>
    · unfold manhattan
      dsimp only
      omega

theorem step_toward (b : Board) (hw : b.walls = []) (t p : Pos)
    (hp : b.is_in_board p = true) (ht : b.is_in_board t = true) (hne : p ≠ t) :
    ∃ q, b.is_in_board q = true ∧ q ∈ get_available_moves b p ∧
      p ∈ get_available_moves b q ∧ manhattan t p = manhattan t q + 1 := by
  obtain ⟨p1, p2⟩ := p
  obtain ⟨t1, t2⟩ := t
  unfold Board.is_in_board at hp ht
  simp only [decide_eq_true_eq] at hp ht
  have hmemf : ∀ (q : Pos), q ∈ get_valid_moves b (p1, p2) →
      (0 ≤ q.1 ∧ q.1 ≤ (b.width : Int) ∧ 0 ≤ q.2 ∧ q.2 ≤ (b.height : Int)) →
      q ∈ get_available_moves b (p1, p2) := by
    intro q hq hb
    refine List.mem_filter.mpr ⟨hq, ?_⟩
    rw [valid_path_point_of_no_walls b hw]
    unfold Board.is_in_board
    simp only [decide_eq_true_eq]
    exact hb
  by_cases hx : p1 ≠ t1
  · by_cases hgt : t1 < p1
    · refine ⟨(p1 - 1, p2), ?_, ?_, ?_, ?_⟩
      · unfold Board.is_in_board
        simp only [decide_eq_true_eq]
        omega
      · refine hmemf (p1 - 1, p2) ?_ (by omega)
        unfold get_valid_moves
        refine List.mem_append_left _ (List.mem_append_left _ (List.mem_append_left _ ?_))
        rw [if_pos (by omega : (0:Int) < p1)]
        exact List.mem_cons_self _ _
      · have hm : (p1, p2) ∈ get_valid_moves b (p1 - 1, p2) := by
          unfold get_valid_moves
          refine List.mem_append_left _ (List.mem_append_left _ (List.mem_append_right _ ?_))
          rw [if_pos (by omega : p1 - 1 < (b.width : Int))]
          simp only [List.mem_singleton, Prod.mk.injEq, and_true, true_and]
          omega
        refine List.mem_filter.mpr ⟨hm, ?_⟩
        rw [valid_path_point_of_no_walls b hw]
        unfold Board.is_in_board
        simp only [decide_eq_true_eq]
        omega
      · unfold manhattan
        dsimp only
        omega
    · refine ⟨(p1 + 1, p2), ?_, ?_, ?_, ?_⟩
      · unfold Board.is_in_board
        simp only [decide_eq_true_eq]
        omega
      · refine hmemf (p1 + 1, p2) ?_ (by omega)
        unfold get_valid_moves
        refine List.mem_append_left _ (List.mem_append_left _ (List.mem_append_right _ ?_))
        rw [if_pos (by omega : p1 < (b.width : Int))]
        exact List.mem_cons_self _ _
      · have hm : (p1, p2) ∈ get_valid_moves b (p1 + 1, p2) := by
          unfold get_valid_moves
          refine List.mem_append_left _ (List.mem_append_left _ (List.mem_append_left _ ?_))
          rw [if_pos (by omega : (0:Int) < p1 + 1)]
          simp only [List.mem_singleton, Prod.mk.injEq, and_true, true_and]
          omega
        refine List.mem_filter.mpr ⟨hm, ?_⟩
        rw [valid_path_point_of_no_walls b hw]
        unfold Board.is_in_board
        simp only [decide_eq_true_eq]
        omega
      · unfold manhattan
        dsimp only
        omega
  · have hy : p2 ≠ t2 := by
      intro hc
      exact hne (by simp only [Prod.mk.injEq]; exact ⟨by omega, hc⟩)
    by_cases hgt : t2 < p2
    · refine ⟨(p1, p2 - 1), ?_, ?_, ?_, ?_⟩
      · unfold Board.is_in_board
        simp only [decide_eq_true_eq]
        omega
      · refine hmemf (p1, p2 - 1) ?_ (by omega)
        unfold get_valid_moves
        refine List.mem_append_left _ (List.mem_append_right _ ?_)
        rw [if_pos (by omega : (0:Int) < p2)]
        exact List.mem_cons_self _ _
      · have hm : (p1, p2) ∈ get_valid_moves b (p1, p2 - 1) := by
          unfold get_valid_moves
          refine List.mem_append_right _ ?_
          rw [if_pos (by omega : p2 - 1 < (b.height : Int))]
          simp only [List.mem_singleton, Prod.mk.injEq, and_true, true_and]
          omega
        refine List.mem_filter.mpr ⟨hm, ?_⟩
        rw [valid_path_point_of_no_walls b hw]
        unfold Board.is_in_board
        simp only [decide_eq_true_eq]
        omega
      · unfold manhattan
        dsimp only
        omega
    · refine ⟨(p1, p2 + 1), ?_, ?_, ?_, ?_⟩
      · unfold Board.is_in_board
        simp only [decide_eq_true_eq]
        omega
      · refine hmemf (p1, p2 + 1) ?_ (by omega)
        unfold get_valid_moves
        refine List.mem_append_right _ ?_
        rw [if_pos (by omega : p2 < (b.height : Int))]
        exact List.mem_cons_self _ _
      · have hm : (p1, p2) ∈ get_valid_moves b (p1, p2 + 1) := by
          unfold get_valid_moves
          refine List.mem_append_left _ (List.mem_append_right _ ?_)
          rw [if_pos (by omega : (0:Int) < p2 + 1)]
          simp only [List.mem_singleton, Prod.mk.injEq, and_true, true_and]
          omega
        refine List.mem_filter.mpr ⟨hm, ?_⟩
        rw [valid_path_point_of_no_walls b hw]
        unfold Board.is_in_board
        simp only [decide_eq_true_eq]
        omega
      · unfold manhattan
        dsimp only
        omega

theorem length_flatMap_const {α β : Type} (l : List α) (f : α → List β) (m : Nat)
    (h : ∀ a ∈ l, (f a).length = m) : (l.flatMap f).length = l.length * m := by
  induction l with
  | nil => simp
  | cons a rest ih =>
    rw [List.flatMap_cons, List.length_append, h a (List.mem_cons_self _ _),
      ih (fun x hx => h x (List.mem_cons_of_mem a hx))]
    simp [Nat.succ_mul]
    omega

theorem mem_allCells (b : Board) (p : Pos) :
    p ∈ allCells b ↔ b.is_in_board p = true := by
  obtain ⟨a, c⟩ := p
  unfold allCells Board.is_in_board
  simp [List.mem_flatMap, List.mem_map, List.mem_range]
  constructor
  · rintro ⟨x, hx, y, hy, hxa, hyc⟩
    refine ⟨by omega, by omega, by omega, by omega⟩
  · rintro ⟨h0, h1, h2, h3⟩
    exact ⟨a.toNat, by omega, c.toNat, by omega, by omega, by omega⟩

theorem length_allCells (b : Board) :
    (allCells b).length = (b.width + 1) * (b.height + 1) := by
  have hlen : ∀ a ∈ List.range (b.width + 1),
      ((List.range (b.height + 1)).map fun y => (Int.ofNat a, Int.ofNat y)).length
        = b.height + 1 := by
    intro a _
    rw [List.length_map, List.length_range]
  unfold allCells
  rw [length_flatMap_const _ _ _ hlen, List.length_range]

theorem nodup_subset_length {α : Type} (l1 l2 : List α)
    (h1 : l1.Nodup) (h2 : ∀ x ∈ l1, x ∈ l2) : l1.length ≤ l2.length :=
  (h1.subperm h2).length_le

theorem minEntry_none_iff (l : List (Nat × Pos)) : minEntry l = none ↔ l = [] := by
  cases l with
  | nil => simp [minEntry]
  | cons a rest =>
    constructor
    · intro h
      have hs := minEntry_isSome a rest
      rw [h] at hs
      simp at hs
    · intro h
      exact absurd h (by simp)

theorem puts_inb (b : Board) (st : BFSState) (hs : SInv st)
    (haux : BfsAux b st) : ∀ x ∈ st.puts, b.is_in_board x = true := by
  intro x hx
  rcases (hs.putsCover x).mp hx with h1 | h2
  · rcases ho : dlookup st.openQ.items x with _ | p
    · rw [ho] at h1; simp at h1
    · have := hs.pq.i2q x p ho
      exact (haux.qdist (p, x) this).2
  · exact haux.closedInb x h2

theorem trace_walk (b : Board) (st : BFSState) (hs : SInv st) (haux : BfsAux b st) :
    ∀ (fuel : Nat) (x : Pos) (acc : List Pos),
      x ∈ st.puts → manhattan b.start_point x + 1 ≤ fuel →
      ∃ chain, trace_aux st.parents fuel x acc = some ((acc ++ chain).reverse) ∧
        chain.length = manhattan b.start_point x ∧
        (chain ≠ [] → chain.getLast? = some b.start_point) := by
  intro fuel
  induction fuel with
  | zero => intro x acc _ hf; omega
  | succ f ih =>
    intro x acc hx hf
    rcases hl : dlookup st.parents x with _ | y
    · have hxs : x = b.start_point := by
        by_cases hc : x = b.start_point
        · exact hc
        · have := haux.parCover x hx hc
          rw [hl] at this
          simp at this
      have hd0 : manhattan b.start_point x = 0 := by
        rw [hxs]; simp [manhattan]
      refine ⟨[], ?_, by rw [hd0]; rfl, fun h => absurd rfl h⟩
      rw [trace_aux, hl]
      simp
    · have hxs : x ≠ b.start_point := by
        intro hc
        rw [hc, haux.startNoPar] at hl
        exact Option.noConfusion hl
      have hpr := dlookup_mem _ _ _ hl
      have hym : y ∈ st.puts := (hs.putsCover y).mpr (Or.inr (hs.parClosed _ hpr))
      have hyd : manhattan b.start_point x = manhattan b.start_point y + 1 :=
        haux.parDist (x, y) hpr
      obtain ⟨chain2, heq, hlen, hlast⟩ := ih y (acc ++ [y]) hym (by omega)
      refine ⟨y :: chain2, ?_, by simp [hlen]; omega, ?_⟩
      · simp only [trace_aux, hl]
        rw [heq, List.append_assoc, List.singleton_append]
      · intro _
        cases chain2 with
        | nil =>
          have hy0 : manhattan b.start_point y = 0 := by
            simp at hlen; omega
          have : y = b.start_point := (manhattan_eq_zero _ _).mp hy0
          rw [this]
          rfl
        | cons c t =>
          rw [List.getLast?_cons_cons]
          exact hlast (by simp)

theorem chain_keys (b : Board) (st : BFSState) (hs : SInv st) (haux : BfsAux b st) :
    ∀ (k : Nat) (x : Pos), x ∈ st.puts → manhattan b.start_point x = k →
      ∃ keys : List Pos, keys.Nodup ∧ keys.length = k ∧
        (∀ z ∈ keys, z ∈ st.parents.map Prod.fst) ∧
        (∀ z ∈ keys, manhattan b.start_point z ≤ k) := by
  intro k
  induction k with
  | zero => exact fun x _ _ => ⟨[], by simp, rfl, by simp, by simp⟩
  | succ k2 ih =>
    intro x hx hd
    have hxs : x ≠ b.start_point := by
      intro hc; rw [hc] at hd; simp [manhattan] at hd
    have hsm := haux.parCover x hx hxs
    rcases hl : dlookup st.parents x with _ | y
    · rw [hl] at hsm; simp at hsm
    · have hpr := dlookup_mem _ _ _ hl
      have hym : y ∈ st.puts := (hs.putsCover y).mpr (Or.inr (hs.parClosed _ hpr))
      have hyd : manhattan b.start_point y = k2 := by
        have h3 : manhattan b.start_point x = manhattan b.start_point y + 1 :=
          haux.parDist (x, y) hpr
        omega
      obtain ⟨keys, hnodup, hlen, hkeys, hbound⟩ := ih y hym hyd
      refine ⟨x :: keys, ?_, by simp [hlen], ?_, ?_⟩
      · rw [List.nodup_cons]
        refine ⟨?_, hnodup⟩
        intro hc
        have := hbound x hc
        omega
      · intro z hz
        rcases List.mem_cons.mp hz with rfl | h2
        · exact List.mem_map_of_mem Prod.fst hpr
        · exact hkeys z h2
      · intro z hz
        rcases List.mem_cons.mp hz with rfl | h2
        · omega
        · have := hbound z h2; omega

theorem closed_reach (b : Board) (hw : b.walls = []) (st : BFSState)
    (hs : SInv st)
    (hnbr : ∀ n ∈ st.closed, ∀ q ∈ get_available_moves b n, q ∈ st.puts)
    (hempty : st.openQ.queue = [])
    (ht : b.is_in_board b.end_point = true) :
    ∀ (k : Nat) (p : Pos), manhattan b.end_point p = k →
      b.is_in_board p = true → p ∈ st.closed → b.end_point ∈ st.closed := by
  have hitems : ∀ x, dlookup st.openQ.items x = none := by
    intro x
    rcases hl : dlookup st.openQ.items x with _ | v
    · rfl
    · have h2 := hs.pq.i2q x v hl
      rw [hempty] at h2
      exact absurd h2 (List.not_mem_nil _)
  intro k
  induction k with
  | zero =>
    intro p hd hinb hp
    exact (manhattan_eq_zero _ _).mp hd ▸ hp
  | succ k2 ih =>
    intro p hd hinb hp
    have hne : p ≠ b.end_point := by
      intro hc; rw [hc] at hd; simp [manhattan] at hd
    obtain ⟨q, hqin, hqa, _, hstep⟩ := step_toward b hw b.end_point p hinb ht hne
    have hq : q ∈ st.puts := hnbr p hp q hqa
    have hqc : q ∈ st.closed := by
      rcases (hs.putsCover q).mp hq with h1 | h2
      · rw [hitems q] at h1; simp at h1
      · exact h2
    exact ih q (by omega) hqin hqc

theorem relax_bfs (b : Board) (d : Nat) (n : Pos) (st : BFSState) (succ : Pos)
    (_hn : n ∈ st.closed) (hnd : d = manhattan b.start_point n)
    (hsuccin : b.is_in_board succ = true)
    (hsuccstep : manhattan b.start_point succ = d + 1 ∨
      manhattan b.start_point succ + 1 = d)
    (inv : MidInv d st) (haux : BfsAux b st)
    (hlev : ∀ x, b.is_in_board x = true → manhattan b.start_point x ≤ d →
      x ∈ st.puts) :
    BfsAux b (relax_successor d n st succ) ∧
    (∀ x, b.is_in_board x = true → manhattan b.start_point x ≤ d →
      x ∈ (relax_successor d n st succ).puts) ∧
    (∀ x ∈ st.puts, x ∈ (relax_successor d n st succ).puts) ∧
    succ ∈ (relax_successor d n st succ).puts := by
  unfold relax_successor
  split
  · next hguard =>
    obtain ⟨hnc, hno⟩ := hguard
    have hsuccputs : succ ∉ st.puts := by
      intro hc
      rcases (inv.putsCover succ).mp hc with h1 | h2
      · unfold PriorityQueueSet.contains at hno
        exact hno h1
      · exact hnc h2
    have hstep : manhattan b.start_point succ = d + 1 := by
      rcases hsuccstep with h1 | h2
      · exact h1
      · exact absurd (hlev succ hsuccin (by omega)) hsuccputs
    have hsuccstart : succ ≠ b.start_point := by
      intro hc
      exact hsuccputs (hc ▸ haux.startMem)
    refine ⟨⟨?_, haux.closedInb, ?_, ?_, ?_, ?_⟩, ?_, ?_, ?_⟩
    · intro e he
      simp only [PriorityQueueSet.put] at he
      rcases List.mem_append.mp he with h1 | h2
      · exact haux.qdist e h1
      · rcases List.mem_singleton.mp h2 with rfl
        exact ⟨by rw [hstep], hsuccin⟩
    · exact List.mem_append_left _ haux.startMem
    · show dlookup (dinsert st.parents succ n) b.start_point = none
      rw [dlookup_dinsert_ne _ _ _ _ (fun hc => hsuccstart hc.symm)]
      exact haux.startNoPar
    · intro pr hpr
      simp only [dinsert] at hpr
      rcases List.mem_cons.mp hpr with rfl | h2
      · show manhattan b.start_point succ = manhattan b.start_point n + 1
        omega
      · exact haux.parDist pr (derase_subset _ _ pr h2)
    · intro x hx hxs
      rcases List.mem_append.mp hx with h1 | h2
      · have hxsucc : x ≠ succ := fun hc => hsuccputs (hc ▸ h1)
        show (dlookup (dinsert st.parents succ n) x).isSome = true
        rw [dlookup_dinsert_ne _ _ _ _ hxsucc]
        exact haux.parCover x h1 hxs
      · rcases List.mem_singleton.mp h2 with rfl
        show (dlookup (dinsert st.parents x n) x).isSome = true
        rw [dlookup_dinsert_self]
        rfl
    · intro x hxin hxd
      exact List.mem_append_left _ (hlev x hxin hxd)
    · intro x hx
      exact List.mem_append_left _ hx
    · exact List.mem_append_right _ (List.mem_cons_self _ _)
  · next hguard =>
    have hsuccputs : succ ∈ st.puts := by
      by_cases hc : succ ∈ st.closed
      · exact (inv.putsCover succ).mpr (Or.inr hc)
      · have h2 : st.openQ.contains succ = true := by
          by_cases h3 : st.openQ.contains succ = true
          · exact h3
          · exact absurd ⟨hc, h3⟩ hguard
        unfold PriorityQueueSet.contains at h2
        exact (inv.putsCover succ).mpr (Or.inl h2)
    split
    · exact ⟨haux, hlev, fun x hx => hx, hsuccputs⟩
    · next prev hprev =>
      have hqm : (prev, succ) ∈ st.openQ.queue := inv.pq.i2q succ prev hprev
      have hub := (inv.rangeBound _ hqm).2
      rw [if_neg (by omega : ¬ (d + 1 < prev))]
      exact ⟨haux, hlev, fun x hx => hx, hsuccputs⟩

theorem foldl_relax_bfs (b : Board) (hw : b.walls = []) (d : Nat) (n : Pos) :
    ∀ (moves : List Pos) (st : BFSState),
      n ∈ st.closed → d = manhattan b.start_point n →
      (∀ m ∈ moves, m ∈ get_available_moves b n) →
      MidInv d st → BfsAux b st →
      (∀ x, b.is_in_board x = true → manhattan b.start_point x ≤ d →
        x ∈ st.puts) →
      BfsAux b (moves.foldl (relax_successor d n) st) ∧
      (∀ x, b.is_in_board x = true → manhattan b.start_point x ≤ d →
        x ∈ (moves.foldl (relax_successor d n) st).puts) ∧
      (∀ x ∈ st.puts, x ∈ (moves.foldl (relax_successor d n) st).puts) ∧
      (∀ m ∈ moves, m ∈ (moves.foldl (relax_successor d n) st).puts) := by
  intro moves
  induction moves with
  | nil =>
    intro st _ _ _ _ haux hlev
    exact ⟨haux, hlev, fun x hx => hx, by simp⟩
  | cons m rest ih =>
    intro st hn hnd hmoves inv haux hlev
    have hm := hmoves m (List.mem_cons_self _ _)
    obtain ⟨hmin, hmstep⟩ := avail_inb_step b hw b.start_point n m hm
    have hmstep2 : manhattan b.start_point m = d + 1 ∨
        manhattan b.start_point m + 1 = d := by
      rcases hmstep with h1 | h2
      · exact Or.inl (by omega)
      · exact Or.inr (by omega)
    obtain ⟨haux1, hlev1, hmono1, hmput⟩ :=
      relax_bfs b d n st m hn hnd hmin hmstep2 inv haux hlev
    obtain ⟨inv1, hc1, _⟩ := relax_preserves d n st m hn inv
    obtain ⟨haux2, hlev2, hmono2, hrest⟩ :=
      ih (relax_successor d n st m) (hc1.symm ▸ hn) hnd
        (fun q hq => hmoves q (List.mem_cons_of_mem m hq)) inv1 haux1 hlev1
    rw [List.foldl_cons]
    refine ⟨haux2, hlev2, fun x hx => hmono2 x (hmono1 x hx), ?_⟩
    intro q hq
    rcases List.mem_cons.mp hq with rfl | h2
    · exact hmono2 q hmput
    · exact hrest q h2

theorem get_empty_dest (s : PriorityQueueSet) (hg : s.get = .empty) : s.queue = [] := by
  unfold PriorityQueueSet.get at hg
  split at hg
  · next hm => exact (minEntry_none_iff _).mp hm
  · next e hm =>
    split at hg
    · exact GetRes.noConfusion hg
    · exact GetRes.noConfusion hg

theorem pop_bfs (b : Board) (hw : b.walls = [])
    (hsin : b.is_in_board b.start_point = true)
    (st : BFSState) (D : Nat) (d : Nat) (n : Pos) (q2 : PriorityQueueSet)
    (hs : SInv st) (haux : BfsAux b st)
    (hband : ∀ e ∈ st.openQ.queue, D ≤ e.1 ∧ e.1 ≤ D + 1)
    (hlev : ∀ x, b.is_in_board x = true → manhattan b.start_point x ≤ D →
      x ∈ st.puts)
    (hnbr : ∀ n2 ∈ st.closed, ∀ q ∈ get_available_moves b n2, q ∈ st.puts)
    (hg : st.openQ.get = .ok (d, n) q2) :
    d = manhattan b.start_point n ∧ b.is_in_board n = true ∧
    (∀ x, b.is_in_board x = true → manhattan b.start_point x ≤ d →
      x ∈ st.puts) := by
  obtain ⟨hmin, hq, hi⟩ := get_ok_dest st.openQ (d, n) q2 hg
  have hmem : (d, n) ∈ st.openQ.queue := minEntry_mem _ _ hmin
  have hdn : d = manhattan b.start_point n ∧ b.is_in_board n = true :=
    haux.qdist (d, n) hmem
  refine ⟨hdn.1, hdn.2, ?_⟩
  intro x hxin hxd
  by_cases hcase : manhattan b.start_point x ≤ D
  · exact hlev x hxin hcase
  · have hdD := hband (d, n) hmem
    have hxD : manhattan b.start_point x = D + 1 ∧ d = D + 1 := by
      constructor <;> omega
    have hxs : x ≠ b.start_point := by
      intro hc
      rw [hc] at hxD
      have h0 : manhattan b.start_point b.start_point = 0 := by simp [manhattan]
      omega
    obtain ⟨y, hyin, _, hxy, hstep⟩ := step_toward b hw b.start_point x hxin hsin hxs
    have hyd : manhattan b.start_point y = D := by omega
    have hyputs : y ∈ st.puts := hlev y hyin (by omega)
    have hyclosed : y ∈ st.closed := by
      rcases (hs.putsCover y).mp hyputs with h1 | h2
      · exfalso
        rcases hly : dlookup st.openQ.items y with _ | py
        · rw [hly] at h1; simp at h1
        · have hyq : (py, y) ∈ st.openQ.queue := hs.pq.i2q y py hly
          have hpyd : py = manhattan b.start_point y := (haux.qdist (py, y) hyq).1
          have := entryLE_prio _ _ (minEntry_le _ _ hmin (py, y) hyq)
          omega
      · exact h2
    exact hnbr y hyclosed x hxy

theorem bfs_loop (b : Board) (hw : b.walls = [])
    (hsin : b.is_in_board b.start_point = true)
    (hein : b.is_in_board b.end_point = true) :
    ∀ (fuel : Nat) (st : BFSState) (D : Nat),
      SInv st → BfsAux b st →
      (∀ e ∈ st.openQ.queue, D ≤ e.1 ∧ e.1 ≤ D + 1) →
      (∀ x, b.is_in_board x = true → manhattan b.start_point x ≤ D →
        x ∈ st.puts) →
      (∀ n2 ∈ st.closed, ∀ q ∈ get_available_moves b n2, q ∈ st.puts) →
      b.end_point ∉ st.closed →
      (b.width + 1) * (b.height + 1) + 1 ≤ fuel + st.closed.length →
      ∃ l, (find_path_loop b fuel st).2 = .path l ∧
        l.length = manhattan b.start_point b.end_point + 1 ∧
        l.head? = some b.start_point ∧ l.getLast? = some b.end_point := by
  intro fuel
  induction fuel with
  | zero =>
    intro st D hs haux _ _ _ _ hfuel
    exfalso
    have hsub : ∀ x ∈ st.closed, x ∈ allCells b := fun x hx =>
      (mem_allCells b x).mpr (haux.closedInb x hx)
    have hle := nodup_subset_length st.closed (allCells b) hs.closedNodup hsub
    rw [length_allCells] at hle
    omega
  | succ k ih =>
    intro st D hs haux hband hlev hnbr hend hfuel
    rw [find_path_loop]
    split
    · next hg =>
      exfalso
      have hqe : st.openQ.queue = [] := get_empty_dest _ hg
      have hsc : b.start_point ∈ st.closed := by
        rcases (hs.putsCover b.start_point).mp haux.startMem with h1 | h2
        · exfalso
          rcases hl : dlookup st.openQ.items b.start_point with _ | v
          · rw [hl] at h1; simp at h1
          · have h3 := hs.pq.i2q _ v hl
            rw [hqe] at h3
            exact absurd h3 (List.not_mem_nil _)
        · exact h2
      exact hend (closed_reach b hw st hs hnbr hqe hein
        (manhattan b.end_point b.start_point) b.start_point rfl hsin hsc)
    · next q hg =>
      exfalso
      unfold PriorityQueueSet.get at hg
      split at hg
      · exact GetRes.noConfusion hg
      · next e hm =>
        split at hg
        · next hl =>
          have hmem := minEntry_mem _ _ hm
          have h2 := hs.pq.q2i e hmem
          rw [hl] at h2
          exact Option.noConfusion h2
        · exact GetRes.noConfusion hg
    · next d n q2 hg =>
      obtain ⟨hnc, hmid⟩ := pop_step st d n q2 hs hg
      obtain ⟨hdn, hninb, hlevd⟩ := pop_bfs b hw hsin st D d n q2 hs haux hband hlev hnbr hg
      obtain ⟨hmin, hq, hi⟩ := get_ok_dest st.openQ (d, n) q2 hg
      have hmem : (d, n) ∈ st.openQ.queue := minEntry_mem _ _ hmin
      rw [if_neg hnc]
      have haux1 : BfsAux b
          { st with openQ := q2, closed := st.closed ++ [n], pops := st.pops ++ [n] } := by
        refine ⟨?_, ?_, haux.startMem, haux.startNoPar, haux.parDist, haux.parCover⟩
        · intro e he
          show e.1 = manhattan b.start_point e.2 ∧ b.is_in_board e.2 = true
          refine haux.qdist e ?_
          have : e ∈ q2.queue := he
          rw [hq] at this
          exact List.mem_of_mem_erase this
        · intro x hx
          rcases List.mem_append.mp hx with h1 | h2
          · exact haux.closedInb x h1
          · rcases List.mem_singleton.mp h2 with rfl
            exact hninb
      by_cases hendpop : n = b.end_point
      · rw [if_pos hendpop]
        have hnputs : n ∈ st.puts := by
          refine (hs.putsCover n).mpr (Or.inl ?_)
          rw [hs.pq.q2i (d, n) hmem]
          rfl
        obtain ⟨keys, hkn, hkl, hkm, _⟩ :=
          chain_keys b st hs haux (manhattan b.start_point n) n hnputs rfl
        have hplen : manhattan b.start_point n ≤ st.parents.length := by
          have h4 := nodup_subset_length keys (st.parents.map Prod.fst) hkn hkm
          rw [List.length_map] at h4
          omega
        obtain ⟨chain, htr, hclen, hclast⟩ :=
          trace_walk b
            { st with openQ := q2, closed := st.closed ++ [n], pops := st.pops ++ [n] }
            (mid_to_sinv d _ hmid) haux1 (st.parents.length + 1) n [n] hnputs (by omega)
        have htrA : trace_aux st.parents (st.parents.length + 1) n [n] =
            some (([n] ++ chain).reverse) := htr
        split
        · next l2 htr2 =>
          have htr2' : trace_aux st.parents (st.parents.length + 1) n [n] = some l2 := htr2
          rw [htrA] at htr2'
          injection htr2' with hl2
          refine ⟨l2, rfl, ?_, ?_, ?_⟩
          · rw [← hl2, List.length_reverse, List.length_append, hclen, ← hendpop]
            simp
            omega
          · rw [← hl2, List.head?_reverse]
            cases hchain : chain with
            | nil =>
              have hn0 : manhattan b.start_point n = 0 := by
                rw [hchain] at hclen
                simp at hclen
                omega
              have hns : n = b.start_point := (manhattan_eq_zero _ _).mp hn0
              rw [hns]
              rfl
            | cons c t =>
              have hcl : chain.getLast? = some b.start_point :=
                hclast (by rw [hchain]; simp)
              rw [hchain] at hcl
              rw [List.getLast?_append, hcl]
              rfl
          · rw [← hl2, List.getLast?_reverse]
            rw [← hendpop]
            rfl
        · next htr2 =>
          exfalso
          have htr2' : trace_aux st.parents (st.parents.length + 1) n [n] = none := htr2
          rw [htrA] at htr2'
          exact Option.noConfusion htr2'
      · rw [if_neg hendpop]
        have hn1 : n ∈ ({ st with openQ := q2, closed := st.closed ++ [n], pops := st.pops ++ [n] } : BFSState).closed := List.mem_append_right _ (List.mem_cons_self _ _)
        obtain ⟨haux2, hlev2, hmono2, hall⟩ :=
          foldl_relax_bfs b hw d n (get_available_moves b n) _ hn1 hdn
            (fun m hm => hm) hmid haux1 hlevd
        obtain ⟨hmid2, hc2, _⟩ :=
          foldl_relax_preserves d n (get_available_moves b n) _ hn1 hmid
        refine ih _ d (mid_to_sinv d _ hmid2) haux2 hmid2.rangeBound hlev2 ?_ ?_ ?_
        · intro n2 hn2 q hq2
          rw [hc2] at hn2
          rcases List.mem_append.mp hn2 with h1 | h2
          · exact hmono2 q (hnbr n2 h1 q hq2)
          · rcases List.mem_singleton.mp h2 with rfl
            exact hall q hq2
        · rw [hc2]
          intro hc
          rcases List.mem_append.mp hc with h1 | h2
          · exact hend h1
          · exact hendpop (List.mem_singleton.mp h2).symm
        · rw [hc2]
          simp only [List.length_append, List.length_singleton]
          omega

/-- C3 amended: for every grid with no walls whose start and end positions are
    in bounds, find_path succeeds and returns a path that begins WITH the
    start position (trace_parents walks back to start and keeps it after the
    reversal) and ends at the goal, whose length is the Manhattan distance
    between start and end plus one - one entry per visited cell, start
    included. Any fuel beyond the cell count (width+1)*(height+1) suffices,
    the loop popping one distinct cell per iteration. -/
theorem c3_amended_no_walls_shortest (b : Board) (fuel : Nat)
    (hw : b.walls = [])
    (hs : b.is_in_board b.start_point = true)
    (he : b.is_in_board b.end_point = true)
    (hfuel : (b.width + 1) * (b.height + 1) + 1 ≤ fuel) :
    ∃ l, (find_path b fuel).2 = .path l ∧
      l.length = manhattan b.start_point b.end_point + 1 ∧
      l.head? = some b.start_point ∧
      l.getLast? = some b.end_point := by
  unfold find_path
  refine bfs_loop b hw hs he fuel (BFSState.init b) 0 (sinv_init b) ?_ ?_ ?_ ?_ ?_ ?_
  · refine ⟨?_, ?_, ?_, rfl, ?_, ?_⟩
    · intro e hemem
      have he2 : e = (0, b.start_point) := List.mem_singleton.mp hemem
      rw [he2]
      exact ⟨by simp [manhattan], hs⟩
    · intro x hx
      exact absurd hx (List.not_mem_nil x)
    · exact List.mem_cons_self _ _
    · intro pr hpr
      exact absurd hpr (List.not_mem_nil pr)
    · intro x hx hxs
      exact absurd (List.mem_singleton.mp hx) hxs
  · intro e hemem
    have he2 : e = (0, b.start_point) := List.mem_singleton.mp hemem
    rw [he2]
    exact ⟨Nat.le_refl 0, Nat.le_succ 0⟩
  · intro x hxin hxd
    have hx0 : x = b.start_point := (manhattan_eq_zero _ _).mp (by omega)
    rw [hx0]
    exact List.mem_cons_self _ _
  · intro n2 hn2
    exact absurd hn2 (List.not_mem_nil n2)
  · exact List.not_mem_nil _
  · simpa using hfuel

/-- C3 amended witness: the hypotheses of the general theorem hold for board5
    with fuel 40, and the returned path is exactly path5, which begins at
    (0, 0), ends at (4, 4), and has length 9 = Manhattan distance 8 plus one. -/
theorem c3_amended_witness :
    board5.walls = [] ∧
    board5.is_in_board board5.start_point = true ∧
    board5.is_in_board board5.end_point = true ∧
    (board5.width + 1) * (board5.height + 1) + 1 ≤ 40 ∧
    (find_path board5 40).2 = .path path5 ∧
    path5.length = manhattan board5.start_point board5.end_point + 1 ∧
    path5.head? = some board5.start_point ∧
    path5.getLast? = some board5.end_point := by
  obtain ⟨l, hl, hlen, hh, hlast⟩ :=
    c3_amended_no_walls_shortest board5 40 rfl (by decide) (by decide) (by decide)
  have hcalc : (find_path board5 40).2 = .path path5 := by decide
  rw [hcalc] at hl
  injection hl with hl2
  subst hl2
  exact ⟨rfl, by decide, by decide, by decide, hcalc, hlen, hh, hlast⟩
